import Mathlib

/-!
Verification development for the ragfin ingestion pipeline.

Python strings are modelled as lists of Unicode code points (`PS`), so that
lone surrogates (legal in Python `str`) are representable.  Fallible Python
code is modelled with `Option`/`Except`: a `none`/`error` result models a
raised exception.  External library collaborators (langchain splitters and
loaders, Chroma) are passed in as function arguments; everything else is
translated from the repository sources.
-/

namespace Ragfin

/-- Python strings as lists of Unicode code points. -/
abbrev PS := List Nat

/-- Build a `PS` from a Lean string literal (used for concrete inputs). -/
def pyStr (s : String) : PS := s.toList.map Char.toNat

/-- Code points for which Python `str.isspace` returns True. -/
def isSpaceCp (c : Nat) : Bool :=
  (9 ≤ c && c ≤ 13) || (28 ≤ c && c ≤ 32) || c = 133 || c = 160 ||
  c = 5760 || (8192 ≤ c && c ≤ 8202) || c = 8232 || c = 8233 ||
  c = 8239 || c = 8287 || c = 12288

/-- Code points treated as line boundaries by Python `str.splitlines`. -/
def isLineBreakCp (c : Nat) : Bool :=
  (10 ≤ c && c ≤ 13) || (28 ≤ c && c ≤ 30) || c = 133 || c = 8232 || c = 8233

/-- Python `str.strip` with no arguments: drop whitespace from both ends. -/
def pyStrip (s : PS) : PS :=
  ((s.dropWhile isSpaceCp).reverse.dropWhile isSpaceCp).reverse

/-- Helper of `pySplitlines`; `cur` accumulates the current line reversed.
A CR immediately followed by LF counts as a single boundary. -/
def splitlinesAux : PS → PS → List PS
  | cur, [] => if cur = [] then [] else [cur.reverse]
  | cur, 13 :: 10 :: rest => cur.reverse :: splitlinesAux [] rest
  | cur, c :: rest =>
    if isLineBreakCp c then cur.reverse :: splitlinesAux [] rest
    else splitlinesAux (c :: cur) rest

/-- Python `str.splitlines`. -/
def pySplitlines (s : PS) : List PS := splitlinesAux [] s

/-- Python `str.isalnum` restricted to the ASCII fragment of the Unicode
tables (the repository only filters real text, where this fragment is what
the chunk-quality check exercises). -/
def isAlnumCp (c : Nat) : Bool :=
  (48 ≤ c && c ≤ 57) || (65 ≤ c && c ≤ 90) || (97 ≤ c && c ≤ 122)

/-- Step 1 of `_clean_content`: `re.sub(r'(\\n)+', '\n', text)` replaces every
maximal run of the two-character sequence backslash-n by one newline.  The
`inRun` flag records that the run currently being read has already emitted
its newline. -/
def collapseLitN : Bool → PS → PS
  | _, [] => []
  | inRun, 92 :: 110 :: rest =>
    if inRun then collapseLitN true rest else 10 :: collapseLitN true rest
  | _, c :: rest => c :: collapseLitN false rest

/-- `re.sub` of a character-class regex `[..]+` against replacement `r`:
every maximal run of characters satisfying `p` becomes the single character
`r`.  Steps 3 and 4 of `_clean_content` instantiate this. -/
def collapseRuns (p : Nat → Bool) (r : Nat) : Bool → PS → PS
  | _, [] => []
  | inRun, c :: rest =>
    if p c then
      if inRun then collapseRuns p r true rest
      else r :: collapseRuns p r true rest
    else c :: collapseRuns p r false rest

/-- UTF-8 encoding of one code point; fails on lone surrogates and on
out-of-range values, as Python `str.encode('utf-8')` does. -/
def utf8Char (c : Nat) : Option (List Nat) :=
  if c < 128 then some [c]
  else if c < 2048 then some [192 + c / 64, 128 + c % 64]
  else if c < 65536 then
    if 55296 ≤ c ∧ c ≤ 57343 then none
    else some [224 + c / 4096, 128 + c / 64 % 64, 128 + c % 64]
  else if c < 1114112 then
    some [240 + c / 262144, 128 + c / 4096 % 64, 128 + c / 64 % 64, 128 + c % 64]
  else none

/-- Python `text.encode('utf-8')` over the code-point model. -/
def utf8Encode : PS → Option (List Nat)
  | [] => some []
  | c :: rest => do
    let b ← utf8Char c
    let bs ← utf8Encode rest
    pure (b ++ bs)

def isOctCp (c : Nat) : Bool := 48 ≤ c && c ≤ 55

def isHexCp (c : Nat) : Bool :=
  (48 ≤ c && c ≤ 57) || (65 ≤ c && c ≤ 70) || (97 ≤ c && c ≤ 102)

def hexValCp (c : Nat) : Nat :=
  if c ≤ 57 then c - 48 else if c ≤ 70 then c - 55 else c - 87

def octValCp (c : Nat) : Nat := c - 48

/-! Python `bytes.decode('unicode_escape')` is modelled by the mutual pair
`uEscDecode`/`uEscAfterBackslash`: bytes are read as Latin-1 except for
backslash escape sequences, and a `none` result models the
`UnicodeDecodeError` the codec raises on malformed escapes.  The `N` named
escape needs the Unicode name database, which is not modelled; it is mapped
to failure (CPython fails on malformed or unknown names). -/
mutual
/-- Decoder body: anything but a backslash is Latin-1 passthrough. -/
def uEscDecode : List Nat → Option PS
  | [] => some []
  | 92 :: rest => uEscAfterBackslash rest
  | b :: rest => (b :: ·) <$> uEscDecode rest

/-- Decoder state just after a backslash: single-character escapes, line
continuation, octal (1-3 digits), `x`/`u`/`U` hex escapes with mandatory
digit counts, and the unknown-escape fallback that keeps the backslash.
A bare trailing backslash is an error. -/
def uEscAfterBackslash : List Nat → Option PS
  | [] => none
  | 110 :: rest => (10 :: ·) <$> uEscDecode rest
  | 116 :: rest => (9 :: ·) <$> uEscDecode rest
  | 114 :: rest => (13 :: ·) <$> uEscDecode rest
  | 92 :: rest => (92 :: ·) <$> uEscDecode rest
  | 39 :: rest => (39 :: ·) <$> uEscDecode rest
  | 34 :: rest => (34 :: ·) <$> uEscDecode rest
  | 97 :: rest => (7 :: ·) <$> uEscDecode rest
  | 98 :: rest => (8 :: ·) <$> uEscDecode rest
  | 102 :: rest => (12 :: ·) <$> uEscDecode rest
  | 118 :: rest => (11 :: ·) <$> uEscDecode rest
  | 10 :: rest => uEscDecode rest
  | 120 :: h1 :: h2 :: rest =>
    if isHexCp h1 ∧ isHexCp h2 then
      ((hexValCp h1 * 16 + hexValCp h2) :: ·) <$> uEscDecode rest
    else none
  | 120 :: _ => none
  | 117 :: a :: b :: c :: d :: rest =>
    if isHexCp a ∧ isHexCp b ∧ isHexCp c ∧ isHexCp d then
      ((hexValCp a * 4096 + hexValCp b * 256 + hexValCp c * 16 + hexValCp d) :: ·) <$>
        uEscDecode rest
    else none
  | 117 :: _ => none
  | 85 :: a :: b :: c :: d :: e :: f :: g :: h :: rest =>
    if isHexCp a ∧ isHexCp b ∧ isHexCp c ∧ isHexCp d ∧
       isHexCp e ∧ isHexCp f ∧ isHexCp g ∧ isHexCp h then
      let v := hexValCp a * 268435456 + hexValCp b * 16777216 + hexValCp c * 1048576 +
               hexValCp d * 65536 + hexValCp e * 4096 + hexValCp f * 256 +
               hexValCp g * 16 + hexValCp h
      if v < 1114112 then (v :: ·) <$> uEscDecode rest else none
    else none
  | 85 :: _ => none
  | 78 :: _ => none
  | d1 :: d2 :: d3 :: rest =>
    if isOctCp d1 then
      if isOctCp d2 then
        if isOctCp d3 then
          ((octValCp d1 * 64 + octValCp d2 * 8 + octValCp d3) :: ·) <$> uEscDecode rest
        else ((octValCp d1 * 8 + octValCp d2) :: ·) <$> uEscDecode (d3 :: rest)
      else ((octValCp d1) :: ·) <$> uEscDecode (d2 :: d3 :: rest)
    else (fun t => 92 :: d1 :: t) <$> uEscDecode (d2 :: d3 :: rest)
  | d1 :: d2 :: [] =>
    if isOctCp d1 then
      if isOctCp d2 then some [octValCp d1 * 8 + octValCp d2]
      else ((octValCp d1) :: ·) <$> uEscDecode [d2]
    else (fun t => 92 :: d1 :: t) <$> uEscDecode [d2]
  | d1 :: [] =>
    if isOctCp d1 then some [octValCp d1] else some [92, d1]
end

/-- The character class of the step 3 regex of `_clean_content`: a newline. -/
def nlP (c : Nat) : Bool := c = 10

/-- The character class of the step 4 regex of `_clean_content`: space or tab. -/
def blankP (c : Nat) : Bool := c = 32 || c = 9

/-- Step 5 of `_clean_content`: `text.replace(chr(160), chr(32))`. -/
def nbspFix (c : Nat) : Nat := if c = 160 then 32 else c

/-- Embedding of `FinVecStore._clean_content` (src/cdbvecstore.py).  A `none`
result models the exception the Python code raises when step 2 (the
encode/decode round trip) fails; the source has no handler for it. -/
def clean_content (text : PS) : Option PS :=
  let t1 := collapseLitN false text
  match utf8Encode t1 with
  | none => none
  | some bs =>
    match uEscDecode bs with
    | none => none
    | some t2 =>
      let t3 := collapseRuns nlP 10 false t2
      let t4 := collapseRuns blankP 32 false t3
      let t5 := t4.map nbspFix
      let lines := ((pySplitlines t5).map pyStrip).filter (· ≠ [])
      some (List.intercalate [32] lines)

/-- A string on which the post-decode half of `_clean_content` is a no-op:
ASCII with no backslash, tab, or line-boundary characters, no two adjacent
blanks, and no leading or trailing whitespace.  Every output of
`_clean_content` on backslash-free ASCII input has this shape. -/
def cleanNF (y : PS) : Prop :=
  (∀ c ∈ y, c < 128 ∧ c ≠ 92 ∧ c ≠ 9 ∧ isLineBreakCp c = false) ∧
  y.Chain' (fun a b => ¬(blankP a = true ∧ blankP b = true)) ∧
  pyStrip y = y

instance (y : PS) : Decidable (cleanNF y) := by
  unfold cleanNF
  infer_instance

/-- Backslash-free ASCII: the inputs on which the normalizer is idempotent. -/
def asciiNoBackslash (x : PS) : Prop := ∀ c ∈ x, c < 128 ∧ c ≠ 92

instance (x : PS) : Decidable (asciiNoBackslash x) := by
  unfold asciiNoBackslash
  infer_instance

/-- Printable-ASCII section names without backslashes or spaces, for which
cleaning preserves the section-name prefix of a flattened section text. -/
def sectionNameOK (sec : PS) : Prop := ∀ c ∈ sec, 33 ≤ c ∧ c ≤ 126 ∧ c ≠ 92

instance (sec : PS) : Decidable (sectionNameOK sec) := by
  unfold sectionNameOK
  infer_instance

/-! ## Documents, deduplication and the ingestion orchestrator
(src/cdbvecstore.py) -/

/-- A langchain Document: page content plus string metadata. -/
structure PyDoc where
  page_content : PS
  metadata : List (PS × PS)
deriving DecidableEq, Repr

/-- Python dict assignment `d[k] = v`: a present key keeps its position and
gets the new value, a fresh key is appended. -/
def pyDictInsert {κ α : Type} [DecidableEq κ] (d : List (κ × α)) (k : κ) (v : α) :
    List (κ × α) :=
  if (d.map Prod.fst).contains k then
    d.map (fun kv => if kv.1 = k then (k, v) else kv)
  else d ++ [(k, v)]

/-- Python dict lookup `d.get(k)`. -/
def pyDictGet {κ α : Type} [DecidableEq κ] (d : List (κ × α)) (k : κ) : Option α :=
  (d.find? (fun kv => kv.1 = k)).map Prod.snd

/-- Embedding of `FinVecStore._get_content_hash`.  The MD5 hex digest over
the UTF-8 bytes is modelled as an injective content key; the spec treats a
hash collision as identical content. -/
def get_content_hash (content : PS) : PS := content

/-- Embedding of `FinVecStore._already_exists`. -/
def already_exists (docHash : PS) (hashesSeen : List PS) : Prop :=
  docHash ∈ hashesSeen

instance (h : PS) (s : List PS) : Decidable (already_exists h s) := by
  unfold already_exists; infer_instance

/-- State threaded through `_split_and_dedup_docs`: the run-scoped
`seen_hashes` set and the accumulated `all_chunks` list. -/
abbrev DedupState := List PS × List PyDoc

/-- Body of the per-chunk loop of `_split_and_dedup_docs`: strip, apply the
length/alphanumeric quality filter, hash, drop duplicates, tag survivors
with their `source_type`. -/
def dedupStep (sourceType : PS) (st : DedupState) (chunk : PyDoc) : DedupState :=
  let text := pyStrip chunk.page_content
  if text.length < 20 ∨ ¬ text.any isAlnumCp then st
  else
    let docHash := get_content_hash text
    if already_exists docHash st.1 then st
    else (docHash :: st.1,
          st.2 ++ [{ chunk with
                     metadata := pyDictInsert chunk.metadata (pyStr "source_type") sourceType }])

/-- Embedding of `FinVecStore._split_and_dedup_docs`.  The langchain
splitter invocation is external; its output chunk list is the input here.
Both the JSON branch and the Document branch of the source run this same
filter/dedup body over the split chunks. -/
def split_and_dedup_docs (chunks : List PyDoc) (st : DedupState) (sourceType : PS) :
    DedupState :=
  chunks.foldl (dedupStep sourceType) st

/-- A chunk that survives the quality filter: stripped content of length at
least 20 containing an alphanumeric character. -/
def chunkOK (c : PyDoc) : Prop :=
  20 ≤ (pyStrip c.page_content).length ∧ (pyStrip c.page_content).any isAlnumCp

instance (c : PyDoc) : Decidable (chunkOK c) := by
  unfold chunkOK; infer_instance

/-- Bool form of the quality filter (negation of the skip condition in
`_split_and_dedup_docs`). -/
def passesFilter (c : PyDoc) : Bool :=
  decide (chunkOK c)

/-- The provenance tag applied to a surviving chunk. -/
def tagChunk (sourceType : PS) (c : PyDoc) : PyDoc :=
  { c with metadata := pyDictInsert c.metadata (pyStr "source_type") sourceType }

/-- Dedup key of a chunk: hash of its trimmed content. -/
def keyOf (c : PyDoc) : PS := get_content_hash (pyStrip c.page_content)

/-- The filtered, tagged chunk stream a call to `_split_and_dedup_docs`
submits to the deduplicator. -/
def taggedPasses (chunks : List PyDoc) (sourceType : PS) : List PyDoc :=
  (chunks.filter passesFilter).map (tagChunk sourceType)

/-- Python values appearing in the screener JSON. -/
inductive PyVal where
  | str (s : PS)
  | int (n : Int)
  | bool (b : Bool)
  | none
  | list (items : List PyVal)
  | dict (entries : List (PS × PyVal))
deriving Repr

mutual
/-- Python `str(v)` (with `asRepr := false`) and `repr(v)` (inside
containers): containers print their elements with `repr`, which quotes
strings.  Python would sometimes switch quote characters; single quotes are
used uniformly here. -/
def pyValFmt (asRepr : Bool) : PyVal → PS
  | .str s => if asRepr then 39 :: (s ++ [39]) else s
  | .int n => pyStr (toString n)
  | .bool b => pyStr (if b then "True" else "False")
  | .none => pyStr "None"
  | .list items =>
    pyStr "[" ++ List.intercalate (pyStr ", ") (pyValFmtList items) ++ pyStr "]"
  | .dict es =>
    pyStr "\x7b" ++ List.intercalate (pyStr ", ") (pyValFmtEntries es) ++ pyStr "\x7d"

/-- The `repr` images of the items of a Python list. -/
def pyValFmtList : List PyVal → List PS
  | [] => []
  | v :: vs => pyValFmt true v :: pyValFmtList vs

/-- The quoted-key `k: v` fragments of the `repr` of a Python dict. -/
def pyValFmtEntries : List (PS × PyVal) → List PS
  | [] => []
  | (k, v) :: kvs =>
    ((39 :: (k ++ [39])) ++ pyStr ": " ++ pyValFmt true v) :: pyValFmtEntries kvs
end

/-- One `k: v` line of `_convert_screener_json_to_documents`. -/
def renderKV (kv : PS × PyVal) : PS := kv.1 ++ pyStr ": " ++ pyValFmt false kv.2

/-- One list item of `_convert_screener_json_to_documents`: dict items become
newline-joined `k: v` lines, anything else is `str(item)`. -/
def renderItem : PyVal → PS
  | .dict es => List.intercalate (pyStr "\n") (es.map renderKV)
  | v => pyValFmt false v

/-- The per-section text of `_convert_screener_json_to_documents`; `none`
models the `continue` branch for values that are not str, list or dict. -/
def renderSection (sec : PS) (content : PyVal) : Option PS :=
  match content with
  | .str s => some (sec ++ pyStr ": " ++ s)
  | .list items =>
    some (sec ++ pyStr ":\n" ++ List.intercalate (pyStr "\n\n") (items.map renderItem))
  | .dict es =>
    some (sec ++ pyStr ":\n" ++ List.intercalate (pyStr "\n") (es.map renderKV))
  | _ => Option.none

/-- Embedding of `FinVecStore._convert_screener_json_to_documents`.  A
`none` result models `_clean_content` raising inside the loop. -/
def convert_screener_json_to_documents : List (PS × PyVal) → Option (List PyDoc)
  | [] => some []
  | (sec, content) :: rest =>
    match renderSection sec content with
    | Option.none => convert_screener_json_to_documents rest
    | some text =>
      match clean_content text with
      | Option.none => Option.none
      | some cleaned =>
        (fun ds => { page_content := cleaned,
                     metadata := [(pyStr "section", sec)] } :: ds) <$>
          convert_screener_json_to_documents rest

/-- Exceptions of the orchestrator model. -/
inductive PyErr where
  | loadError
  | cleanError
  | extractError
  | attributeError
  | indexError
deriving DecidableEq, Repr

/-- Lift the `Option` model of a raising call into the `Except` model. -/
def optErr {α : Type} (e : PyErr) : Option α → Except PyErr α
  | Option.none => .error e
  | some a => .ok a

/-- Apply `_clean_content` to a document, as `doc.page_content =
self._clean_content(doc.page_content)` does. -/
def cleanDoc (d : PyDoc) : Option PyDoc :=
  (clean_content d.page_content).map (fun c => { d with page_content := c })

def cleanDocsAll : List PyDoc → Option (List PyDoc)
  | [] => some []
  | d :: ds => do pure ((← cleanDoc d) :: (← cleanDocsAll ds))

/-- Inputs of `generate_vectorstore`.  The external collaborators (web, PDF
and excel loaders, the langchain splitters, `filter_complex_metadata`, the
screener extraction) are arguments: a loader or extractor entry that would
raise is an `error` value, a splitter is a function from the loaded
documents to split chunks. -/
structure IngestArgs where
  webDocs : Except PyErr (List PyDoc)
  webSplit : List PyDoc → List PyDoc
  pdfLoads : List (Except PyErr (List PyDoc))
  pdfSplit : List PyDoc → List PyDoc
  excelLoads : List (Except PyErr (List PyDoc))
  excelSplit : List PyDoc → List PyDoc
  screenerExtracts : List (Except PyErr (List (PS × PyVal)))
  screenerSplit : List PyDoc → List PyDoc
  filterComplexMetadata : List PyDoc → List PyDoc

/-- Web pages: each loaded document is cleaned (a clean failure propagates),
split per document, then filtered/deduplicated with tag web. -/
def webPhase (a : IngestArgs) : Except PyErr DedupState := do
  let docs ← a.webDocs
  docs.foldlM
    (fun st doc => do
      let d ← optErr .cleanError (cleanDoc doc)
      pure (split_and_dedup_docs (a.webSplit [d]) st (pyStr "web")))
    (([], []) : DedupState)

/-- PDFs: per file, load, clean every page, split the file's documents
together, then filter/dedup with tag pdf.  No handler: failures propagate. -/
def pdfPhase (a : IngestArgs) (st0 : DedupState) : Except PyErr DedupState :=
  a.pdfLoads.foldlM
    (fun st load => do
      let docs ← load
      let docs ← optErr .cleanError (cleanDocsAll docs)
      pure (split_and_dedup_docs (a.pdfSplit docs) st (pyStr "pdf")))
    st0

/-- Excel files: loaded documents are split without cleaning, then
filtered/deduplicated with tag excel.  No handler: failures propagate. -/
def excelPhase (a : IngestArgs) (st0 : DedupState) : Except PyErr DedupState :=
  a.excelLoads.foldlM
    (fun st load => do
      let docs ← load
      pure (split_and_dedup_docs (a.excelSplit docs) st (pyStr "excel")))
    st0

/-- The body of the per-URL try block of the screener loop. -/
def screenerTry (a : IngestArgs) (ext : Except PyErr (List (PS × PyVal))) :
    Except PyErr (List PyDoc) := do
  let jsonData ← ext
  let jsonDocs ← optErr .cleanError (convert_screener_json_to_documents jsonData)
  let jsonDocs ← optErr .cleanError (cleanDocsAll jsonDocs)
  pure (a.screenerSplit jsonDocs)

/-- Screener URLs: the only loop with an exception handler — a failing URL
is logged and skipped, the accumulated state is kept. -/
def screenerPhase (a : IngestArgs) (st0 : DedupState) : DedupState :=
  a.screenerExtracts.foldl
    (fun st ext =>
      match screenerTry a ext with
      | .error _ => st
      | .ok chunks => split_and_dedup_docs chunks st (pyStr "screener"))
    st0

/-- The accumulated `all_chunks` of one run of `generate_vectorstore`. -/
def corpusOf (a : IngestArgs) : Except PyErr (List PyDoc) := do
  let st1 ← webPhase a
  let st2 ← pdfPhase a st1
  let st3 ← excelPhase a st2
  pure (screenerPhase a st3).2

/-- Result of `generate_vectorstore`: an uncaught exception, the logged
no-data return of `None`, or `Chroma.from_documents` invoked on the final
filtered chunks. -/
inductive IngestOutcome where
  | err (e : PyErr)
  | noData
  | built (chunks : List PyDoc)
deriving DecidableEq, Repr

/-- Embedding of `FinVecStore.generate_vectorstore` (src/cdbvecstore.py):
accumulate chunks over all sources, apply `filter_complex_metadata`, return
`None` when nothing is left, otherwise build the index from the filtered
chunks. -/
def generate_vectorstore (a : IngestArgs) : IngestOutcome :=
  match corpusOf a with
  | .error e => .err e
  | .ok allChunks =>
    let filtered := a.filterComplexMetadata allChunks
    if filtered = [] then .noData else .built filtered

/-- The screener fold with its URL list made explicit. -/
def screenerFold (a : IngestArgs) (st0 : DedupState)
    (exts : List (Except PyErr (List (PS × PyVal)))) : DedupState :=
  exts.foldl
    (fun st ext =>
      match screenerTry a ext with
      | .error _ => st
      | .ok chunks => split_and_dedup_docs chunks st (pyStr "screener"))
    st0

instance exceptDecEq {eps alf : Type} [DecidableEq eps] [DecidableEq alf] :
    DecidableEq (Except eps alf) := fun a b =>
  match a, b with
  | .error e1, .error e2 =>
    if h : e1 = e2 then isTrue (by rw [h]) else isFalse (by intro hc; cases hc; exact h rfl)
  | .error _, .ok _ => isFalse (by intro hc; cases hc)
  | .ok _, .error _ => isFalse (by intro hc; cases hc)
  | .ok v1, .ok v2 =>
    if h : v1 = v2 then isTrue (by rw [h]) else isFalse (by intro hc; cases hc; exact h rfl)

/-- An ingestion configuration whose only source is one web loader result
(identity splitter and metadata filter); used for concrete runs. -/
def webOnlyArgs (docs : List PyDoc) : IngestArgs :=
  ⟨.ok docs, id, [], id, [], id, [], id, id⟩

/-! ## HTML extraction (src/fintastic.py and src/fin_data_extractor.py)

The parsed BeautifulSoup tree is embedded as `Node`: an element carries its
tag name, the token list of its `class` attribute, its other attributes and
its children; a text node carries a string.  The soup object itself is the
`[document]` root element.  Selection and `find_all` / `find_next` /
`find_previous` traversals are scoped to the subtree of the node they are
called on. -/

inductive Node where
  | elem (tag : String) (classes : List String)
      (attrs : List (String × PS)) (children : List Node)
  | text (s : PS)
deriving Repr

/-! The text-node strings beneath a node, in document order (BeautifulSoup
`strings`). -/
mutual

def nodeStrings : Node → List PS
  | .text s => [s]
  | .elem _ _ _ ch => nodeStringsL ch

def nodeStringsL : List Node → List PS
  | [] => []
  | n :: ns => nodeStrings n ++ nodeStringsL ns

end

/-- `get_text(separator=sep, strip=strip)`: the descendant strings joined
with `sep`; with `strip=True` each string is stripped first and strings that
become empty are dropped. -/
def get_text (strip : Bool) (sep : PS) (n : Node) : PS :=
  if strip then
    List.intercalate sep (((nodeStrings n).map pyStrip).filter (fun s => !s.isEmpty))
  else List.intercalate sep (nodeStrings n)

/-- The `.text` property: `get_text()` with no separator and no strip. -/
def nodeText (n : Node) : PS := get_text false [] n

/-- BeautifulSoup `Tag.string`: the string of a text node, recursing through
an element with exactly one child, undefined otherwise. -/
def nodeString : Node → Option PS
  | .text s => some s
  | .elem _ _ _ [c] => nodeString c
  | .elem _ _ _ _ => Option.none

/-- `tag.get(name)`: attribute lookup. -/
def attrGet (n : Node) (name : String) : Option PS :=
  match n with
  | .text _ => Option.none
  | .elem _ _ attrs _ => (attrs.find? (fun kv => kv.1 = name)).map Prod.snd

/-- Does an element carry the given class token? -/
def hasClass (c : String) : Node → Bool
  | .elem _ classes _ _ => classes.contains c
  | .text _ => false

/-- Is the node an element with one of the given tag names? -/
def tagIs (names : List String) : Node → Bool
  | .elem t _ _ _ => names.contains t
  | .text _ => false

/-! The strict descendants of a node in pre-order (document order), used by
`find_all`, `find` and `find_next`. -/
mutual

def preNodesN : Node → List Node
  | .text _ => []
  | .elem _ _ _ ch => preNodesL ch

def preNodesL : List Node → List Node
  | [] => []
  | x :: xs => x :: (preNodesN x ++ preNodesL xs)

end

/-- All strict descendants of a node, in document order. -/
def allDescs (n : Node) : List Node := preNodesN n

/-! Pre-order traversal entries for the strict descendants of a node: each
descendant paired with its ancestor chain (nearest first, ending at the
traversal root) and its following siblings. -/
mutual

def preWalkN (path : List Node) : Node → List (Node × List Node × List Node)
  | .text _ => []
  | .elem t c a ch => preWalkL (Node.elem t c a ch :: path) ch

def preWalkL (path : List Node) : List Node → List (Node × List Node × List Node)
  | [] => []
  | x :: xs => (x, path, xs) :: (preWalkN path x ++ preWalkL path xs)

end

/-- The traversal entries of a soup. -/
def domEntries (soup : Node) : List (Node × List Node × List Node) :=
  preWalkN [] soup

/-- `find_all(names, class_=cls)`: matching element descendants in document
order. -/
def find_all (names : List String) (cls : Option String) (n : Node) : List Node :=
  (allDescs n).filter (fun m =>
    tagIs names m &&
      (match cls with | Option.none => true | some c => hasClass c m))

/-- `find(names, class_=cls)`: the first match of `find_all`. -/
def findFirst (names : List String) (cls : Option String) (n : Node) : Option Node :=
  (find_all names cls n).head?

/-- `find(name, string=s)`: the first element descendant with a matching tag
name whose `string` equals `s`. -/
def findByString (names : List String) (s : PS) (n : Node) : Option Node :=
  ((allDescs n).filter (fun m =>
    tagIs names m && decide (nodeString m = some s))).head?

/-- ASCII lowercasing of a codepoint. -/
def lowerCp (c : Nat) : Nat := if 65 ≤ c ∧ c ≤ 90 then c + 32 else c

/-- Is the first string a leading piece of the second? -/
def psIsPrefixOfB : PS → PS → Bool
  | [], _ => true
  | _ :: _, [] => false
  | a :: as, b :: bs => a == b && psIsPrefixOfB as bs

/-- Does the first string occur as a contiguous substring of the second? -/
def psIsInfixOfB (pat : PS) : PS → Bool
  | [] => pat.isEmpty
  | c :: rest => psIsPrefixOfB pat (c :: rest) || psIsInfixOfB pat rest

/-- `re.compile("Shareholding Pattern", re.I).search(s)` succeeds: the
literal pattern occurs in `s` up to ASCII case. -/
def shpMatch (s : PS) : Bool :=
  psIsInfixOfB (pyStr "shareholding pattern") (s.map lowerCp)

/-- The pre-order tail after the first node satisfying `p`: the document
order elements a `find_next` from that node searches. -/
def afterFirst (p : Node → Bool) : List Node → Option (List Node)
  | [] => Option.none
  | x :: xs => if p x then some xs else afterFirst p xs

/-- A simple CSS selector compound: optional tag name, optional id,
required class tokens. -/
structure SSel where
  tag : Option String
  id : Option PS
  classes : List String
deriving Repr

/-- Tag-only simple selector, e.g. `h1`. -/
def selTag (t : String) : SSel := ⟨some t, Option.none, []⟩

/-- Class-only simple selector, e.g. `.company-info`. -/
def selClasses (cs : List String) : SSel := ⟨Option.none, Option.none, cs⟩

/-- Tag-and-classes simple selector, e.g. `ul.list-links`. -/
def selTagClasses (t : String) (cs : List String) : SSel := ⟨some t, Option.none, cs⟩

/-- Id-only simple selector, e.g. `#top-ratios`. -/
def selId (i : String) : SSel := ⟨Option.none, some (pyStr i), []⟩

/-- Does a node match a simple selector compound? -/
def matchesSimple (s : SSel) (n : Node) : Bool :=
  match n with
  | .text _ => false
  | .elem t classes _ _ =>
    (match s.tag with | Option.none => true | some tn => decide (tn = t)) &&
    (match s.id with
     | Option.none => true
     | some iv => decide (attrGet n "id" = some iv)) &&
    s.classes.all (fun c => classes.contains c)

/-- A CSS combinator: descendant (whitespace) or direct child (`>`). -/
inductive Comb where
  | desc
  | child
deriving Repr

/-- Right-to-left matching of the outer compounds of a selector against an
ancestor chain (nearest ancestor first). -/
def matchOut : List (Comb × SSel) → List Node → Bool
  | [], _ => true
  | _ :: _, [] => false
  | (.child, s) :: rest, a :: ps => matchesSimple s a && matchOut rest ps
  | (.desc, s) :: rest, a :: ps =>
    (matchesSimple s a && matchOut rest ps) || matchOut ((Comb.desc, s) :: rest) ps

/-- A CSS selector: the rightmost (target) compound plus the outer
compounds with their combinators, listed from the target outward. -/
structure Sel where
  target : SSel
  outer : List (Comb × SSel)
deriving Repr

/-- A selector consisting of one simple compound. -/
def sel1 (s : SSel) : Sel := ⟨s, []⟩

/-- `el.select(sel)`: matching element descendants in document order. -/
def select (sel : Sel) (n : Node) : List Node :=
  ((preWalkN [] n).filter (fun e =>
    matchesSimple sel.target e.1 && matchOut sel.outer e.2.1)).map (fun e => e.1)

/-- `el.select_one(sel)`: the first match of `select`. -/
def select_one (sel : Sel) (n : Node) : Option Node :=
  (select sel n).head?

/-! ### The extraction record

`self.data` is a Python dict from section names to heterogeneous values;
its embedding reuses `PyVal`. -/

/-- The `self.data` record being built by the extractor. -/
abbrev FinData := List (PS × PyVal)

/-- A possibly-absent attribute value as it is stored in the record
(`None` when the attribute is missing). -/
def optStrVal : Option PS → PyVal
  | some s => .str s
  | Option.none => PyVal.none

/-- Python `s.split(d)` for a one-character separator. -/
def splitOnCp (d : Nat) : PS → List PS
  | [] => [[]]
  | c :: rest =>
    let r := splitOnCp d rest
    if c = d then [] :: r
    else
      match r with
      | [] => [[c]]
      | p :: ps => (c :: p) :: ps

/-! ### fintastic.py sub-extractions -/

/-- `extract_company_name` (src/fintastic.py): guarded by `if title`. -/
def extract_company_name_fin (soup : Node) (data : FinData) : FinData :=
  match select_one (sel1 (selTag "h1")) soup with
  | some title =>
    pyDictInsert data (pyStr "company_name") (.str (pyStrip (nodeText title)))
  | Option.none => data

/-- `extract_company_info` (src/fintastic.py). -/
def extract_company_info_fin (soup : Node) (data : FinData) : FinData :=
  match select_one (sel1 (selClasses ["company-info"])) soup with
  | Option.none => pyDictInsert data (pyStr "company_info") (.dict [])
  | some ci =>
    let info : List (PS × PyVal) := []
    let info :=
      match select_one ⟨selClasses ["about"],
          [(.desc, selClasses ["company-profile"])]⟩ ci with
      | some about =>
        pyDictInsert info (pyStr "about") (.str (get_text true (pyStr " ") about))
      | Option.none => info
    let info :=
      match select_one ⟨selClasses ["commentary"],
          [(.desc, selClasses ["company-profile"])]⟩ ci with
      | some kp =>
        pyDictInsert info (pyStr "key_points") (.str (get_text true (pyStr "\n") kp))
      | Option.none => info
    let extLinks : List (PS × PyVal) :=
      match select_one (sel1 (selClasses ["company-links"])) ci with
      | some lb =>
        (find_all ["a"] Option.none lb).foldl
          (fun d a =>
            let label := get_text true (pyStr " ") a
            match attrGet a "href" with
            | some href =>
              if label ≠ [] ∧ href ≠ [] then pyDictInsert d label (.str href) else d
            | Option.none => d) []
      | Option.none => []
    let info :=
      if extLinks.isEmpty then info
      else pyDictInsert info (pyStr "external_links") (.dict extLinks)
    let ratios : List (PS × PyVal) :=
      (select ⟨selTag "li", [(.desc, selId "top-ratios")]⟩ ci).foldl
        (fun d li =>
          match select_one (sel1 (selClasses ["name"])) li,
              select_one (sel1 (selClasses ["value"])) li with
          | some k, some v =>
            pyDictInsert d (pyStrip (nodeText k)) (.str (get_text true (pyStr " ") v))
          | _, _ => d) []
    let info :=
      if ratios.isEmpty then info
      else pyDictInsert info (pyStr "top_ratios") (.dict ratios)
    pyDictInsert data (pyStr "company_info") (.dict info)

/-- `extract_text_list` (src/fintastic.py): `get_text(strip=True,
separator=" ")` over a selection. -/
def extract_text_list_fin (sel : Sel) (soup : Node) : List PS :=
  (select sel soup).map (get_text true (pyStr " "))

/-- `extract_pros_cons` (src/fintastic.py). -/
def extract_pros_cons_fin (soup : Node) (data : FinData) : FinData :=
  let pros := extract_text_list_fin ⟨selTag "li", [(.desc, selClasses ["pros"])]⟩ soup
  let cons := extract_text_list_fin ⟨selTag "li", [(.desc, selClasses ["cons"])]⟩ soup
  pyDictInsert
    (pyDictInsert data (pyStr "pros") (.list (pros.map .str)))
    (pyStr "cons") (.list (cons.map .str))

/-- `dict(zip(headers, cells))`: positional zip, a repeated key keeping its
first position with the later value. -/
def dictOfZip (ks vs : List PS) : List (PS × PyVal) :=
  (List.zip ks vs).foldl (fun d kv => pyDictInsert d kv.1 (.str kv.2)) []

/-- The stripped `td` texts of one `tr` row. -/
def rowCells (tr : Node) : List PS :=
  (find_all ["td"] Option.none tr).map (fun td => pyStrip (nodeText td))

/-- The shared table-row loop of `extract_tables` and
`extract_shareholding_pattern`: stripped `th` texts as headers, each `tr`
after the first zipped into a row dict, rows with no `td` cells skipped. -/
def tableRows (table : Node) : List PyVal :=
  let headers := (find_all ["th"] Option.none table).map (fun th => pyStrip (nodeText th))
  ((find_all ["tr"] Option.none table).drop 1).foldl
    (fun rows tr =>
      if rowCells tr ≠ [] then rows ++ [PyVal.dict (dictOfZip headers (rowCells tr))]
      else rows) []

/-- One step of the `extract_tables` document walk: remember the most
recently seen heading (what `table.find_previous(headNames)` returns), and
on a `table.data-table` with a preceding heading store its rows under the
heading's stripped text. -/
def tablesStep (headNames : List String) (st : Option PS × FinData) (n : Node) :
    Option PS × FinData :=
  if tagIs headNames n then (some (nodeText n), st.2)
  else if tagIs ["table"] n && hasClass "data-table" n then
    match st.1 with
    | some h => (st.1, pyDictInsert st.2 (pyStrip h) (.list (tableRows n)))
    | Option.none => st
  else st

/-- `extract_tables`: iterate the data tables in document order and file
each one's rows under its nearest preceding heading. -/
def extract_tables_walk (headNames : List String) (soup : Node) (data : FinData) :
    FinData :=
  ((allDescs soup).foldl (tablesStep headNames) (Option.none, data)).2

/-- `extract_tables` (src/fintastic.py): headings are `h2` or `h3`. -/
def extract_tables_fin (soup : Node) (data : FinData) : FinData :=
  extract_tables_walk ["h2", "h3"] soup data

/-- `extract_tables` (src/fin_data_extractor.py): headings are `h2` only. -/
def extract_tables_st (soup : Node) (data : FinData) : FinData :=
  extract_tables_walk ["h2"] soup data

/-- `extract_shareholding_pattern` (identical in both variants): the first
`h2` whose string matches the pattern case-insensitively, then its next
sibling `table`. -/
def extract_shareholding (soup : Node) (data : FinData) : FinData :=
  match (domEntries soup).find? (fun e =>
      tagIs ["h2"] e.1 &&
        (match nodeString e.1 with | some s => shpMatch s | Option.none => false)) with
  | Option.none => data
  | some e =>
    match (e.2.2.filter (tagIs ["table"])).head? with
    | Option.none => data
    | some table =>
      pyDictInsert data (pyStr "Shareholding Pattern") (.list (tableRows table))

/-- `find("h2", string="Documents")` followed by `find_next("ul")`: the
first `ul` after the heading in document order. -/
def documentsUl (soup : Node) : Option Node :=
  (afterFirst
      (fun n => tagIs ["h2"] n && decide (nodeString n = some (pyStr "Documents")))
      (allDescs soup)).bind
    (fun rest => (rest.filter (tagIs ["ul"])).head?)

/-- The announcements loop (both variants): per `li`, the first anchor's
stripped text and `href`. -/
def announcementEntries (ul : Node) : List PyVal :=
  (find_all ["li"] Option.none ul).foldl
    (fun acc li =>
      match findFirst ["a"] Option.none li with
      | some a =>
        acc ++ [PyVal.dict [(pyStr "title", .str (pyStrip (nodeText a))),
                            (pyStr "url", optStrVal (attrGet a "href"))]]
      | Option.none => acc) []

/-- The annual-report title `a_tag.contents[0].strip()`: IndexError on an
anchor with no children, AttributeError when the first child is a Tag (the
text-node case is the only one that strips).  The bare text-node case is
unreachable, since `find_all` returns elements only. -/
def annualTitle : Node → Except PyErr PS
  | .text _ => .error .attributeError
  | .elem _ _ _ [] => .error .indexError
  | .elem _ _ _ (.text s :: _) => .ok (pyStrip s)
  | .elem _ _ _ (.elem _ _ _ _ :: _) => .error .attributeError

/-- The annual-reports loop (src/fintastic.py): per `li`, the first
anchor's leading text node as title (fallible) and its `href`. -/
def annualEntries : List Node → Except PyErr (List PyVal)
  | [] => .ok []
  | li :: lis =>
    match findFirst ["a"] Option.none li with
    | Option.none => annualEntries lis
    | some a =>
      match annualTitle a with
      | .error e => .error e
      | .ok title =>
        match annualEntries lis with
        | .error e => .error e
        | .ok rest =>
          .ok (PyVal.dict [(pyStr "title", .str title),
                           (pyStr "url", optStrVal (attrGet a "href"))] :: rest)

/-- `div.documents.annual-reports ul.list-links`. -/
def arSection (soup : Node) : Option Node :=
  select_one ⟨selTagClasses "ul" ["list-links"],
    [(.desc, selTagClasses "div" ["documents", "annual-reports"])]⟩ soup

/-- `div.documents.concalls ul.list-links > li`. -/
def concallLis (soup : Node) : List Node :=
  select ⟨selTag "li",
    [(.child, selTagClasses "ul" ["list-links"]),
     (.desc, selTagClasses "div" ["documents", "concalls"])]⟩ soup

/-- The site origin prefixed to a concall button's relative `data-url`. -/
def concallBase : PS := pyStr "https://www.screener.in"

/-- One concall `li` (src/fintastic.py): the date from its first `div`,
entries from `a.concall-link` anchors then `button.concall-link` buttons
whose `data-url` is resolved against the site origin; `none` when no entry
survives. -/
def concallLi (li : Node) : Option PyVal :=
  let date :=
    match findFirst ["div"] Option.none li with
    | some d => pyStrip (nodeText d)
    | Option.none => pyStr "Unknown Date"
  let fromAnchors :=
    (find_all ["a"] (some "concall-link") li).foldl
      (fun acc a =>
        let label := get_text true (pyStr " ") a
        match attrGet a "href" with
        | some url =>
          if label ≠ [] ∧ url ≠ [] then
            acc ++ [PyVal.dict [(pyStr "type", .str label), (pyStr "url", .str url)]]
          else acc
        | Option.none => acc) []
  let entries :=
    (find_all ["button"] (some "concall-link") li).foldl
      (fun acc b =>
        let label := get_text true (pyStr " ") b
        match attrGet b "data-url" with
        | some m =>
          if label ≠ [] ∧ m ≠ [] then
            acc ++ [PyVal.dict [(pyStr "type", .str label),
                                (pyStr "url", .str (concallBase ++ m))]]
          else acc
        | Option.none => acc) fromAnchors
  if entries.isEmpty then Option.none
  else some (.dict [(pyStr "date", .str date), (pyStr "links", .list entries)])

/-- `extract_documents_links` (src/fintastic.py): the three keyed lists;
only the annual-reports titles can raise. -/
def extract_documents_links_fin (soup : Node) (data : FinData) :
    Except PyErr FinData :=
  (match arSection soup with
   | some arSec => annualEntries (find_all ["li"] Option.none arSec)
   | Option.none => .ok []).map
    (fun ar =>
      pyDictInsert data (pyStr "documents")
        (PyVal.dict
          [(pyStr "announcements", .list
             (match documentsUl soup with
              | some ul => announcementEntries ul
              | Option.none => [])),
           (pyStr "annual_reports", .list ar),
           (pyStr "concalls", .list
             ((concallLis soup).foldl
               (fun acc li =>
                 match concallLi li with
                 | some v => acc ++ [v]
                 | Option.none => acc) []))]))

/-- `extract_all` (src/fintastic.py): company name, company info,
pros/cons, tables, shareholding, document links (the peer extraction is
commented out in the source). -/
def extract_all_fin (soup : Node) : Except PyErr FinData :=
  extract_documents_links_fin soup
    (extract_shareholding soup
      (extract_tables_fin soup
        (extract_pros_cons_fin soup
          (extract_company_info_fin soup
            (extract_company_name_fin soup [])))))

/-! ### fin_data_extractor.py sub-extractions (static variant) -/

/-- `extract_company_name` (src/fin_data_extractor.py):
`self.soup.select_one("h1").text.strip()` has no guard, so a page without
an `h1` raises AttributeError on the `None` result. -/
def extract_company_name_st (soup : Node) (data : FinData) :
    Except PyErr FinData :=
  match select_one (sel1 (selTag "h1")) soup with
  | some title =>
    .ok (pyDictInsert data (pyStr "company_name") (.str (pyStrip (nodeText title))))
  | Option.none => .error .attributeError

/-- `extract_info_box` (src/fin_data_extractor.py): each `ul.info-list li`
whose colon-joined text splits into exactly two parts contributes a
stripped key/value pair. -/
def extract_info_box_st (soup : Node) (data : FinData) : FinData :=
  let info :=
    (select ⟨selTag "li", [(.desc, selTagClasses "ul" ["info-list"])]⟩ soup).foldl
      (fun info li =>
        match splitOnCp 58 (get_text true (pyStr ":") li) with
        | [k, v] => pyDictInsert info (pyStrip k) (.str (pyStrip v))
        | _ => info) []
  pyDictInsert data (pyStr "company_info") (.dict info)

/-- `extract_text_list` (src/fin_data_extractor.py): `get_text(strip=True)`
with the default empty separator. -/
def extract_text_list_st (sel : Sel) (soup : Node) : List PS :=
  (select sel soup).map (get_text true [])

/-- `extract_pros_cons` (src/fin_data_extractor.py). -/
def extract_pros_cons_st (soup : Node) (data : FinData) : FinData :=
  let pros := extract_text_list_st ⟨selTag "li", [(.desc, selClasses ["pros"])]⟩ soup
  let cons := extract_text_list_st ⟨selTag "li", [(.desc, selClasses ["cons"])]⟩ soup
  pyDictInsert
    (pyDictInsert data (pyStr "pros") (.list (pros.map .str)))
    (pyStr "cons") (.list (cons.map .str))

/-- `find(name, id=idv)`. -/
def findByAttrId (names : List String) (idv : PS) (n : Node) : Option Node :=
  ((allDescs n).filter (fun m =>
    tagIs names m && decide (attrGet m "id" = some idv))).head?

/-- `extract_peer_info` (src/fin_data_extractor.py): sector/industry from
the first two anchors of `p.sub`, benchmark tags, all inside
`section#peers`; absent section leaves the record untouched. -/
def extract_peer_info_st (soup : Node) (data : FinData) : FinData :=
  match findByAttrId ["section"] (pyStr "peers") soup with
  | Option.none => data
  | some ps =>
    let pd : List (PS × PyVal) := []
    let pd :=
      match findFirst ["p"] (some "sub") ps with
      | some sub =>
        let links := find_all ["a"] Option.none sub
        let pd :=
          match links.head? with
          | some l0 => pyDictInsert pd (pyStr "sector") (.str (pyStrip (nodeText l0)))
          | Option.none => pd
        match links[1]? with
        | some l1 => pyDictInsert pd (pyStr "industry") (.str (pyStrip (nodeText l1)))
        | Option.none => pd
      | Option.none => pd
    let benches :=
      (select ⟨selTagClasses "a" ["tag"], [(.desc, selId "benchmarks")]⟩ ps).map
        (fun t => PyVal.str (pyStrip (nodeText t)))
    pyDictInsert data (pyStr "peer_info")
      (.dict (pyDictInsert pd (pyStr "benchmarks") (.list benches)))

/-- `extract_documents_links` (src/fin_data_extractor.py): announcements
only, stored as a flat list. -/
def extract_documents_links_st (soup : Node) (data : FinData) : FinData :=
  pyDictInsert data (pyStr "documents")
    (.list (match documentsUl soup with
            | some ul => announcementEntries ul
            | Option.none => []))

/-- `extract_all` (src/fin_data_extractor.py): only the company-name step
can raise; everything after it is total. -/
def extract_all_st (soup : Node) : Except PyErr FinData :=
  (extract_company_name_st soup []).map
    (fun d =>
      extract_documents_links_st soup
        (extract_shareholding soup
          (extract_tables_st soup
            (extract_peer_info_st soup
              (extract_pros_cons_st soup
                (extract_info_box_st soup d))))))

/-! ### Predicates and fixtures for the extraction theorems -/

/-- Is an `Except` value a normal return? -/
def exceptOk {α : Type} : Except PyErr α → Bool
  | .ok _ => true
  | .error _ => false

/-- Every annual-report list item whose anchor exists starts with a text
node: exactly the condition under which `a_tag.contents[0].strip()`
succeeds. -/
def annualOKli (li : Node) : Bool :=
  match findFirst ["a"] Option.none li with
  | Option.none => true
  | some a => exceptOk (annualTitle a)

/-- All annual-report entries of a soup have well-formed anchors. -/
def annualsOK (soup : Node) : Bool :=
  match arSection soup with
  | Option.none => true
  | some arSec => (find_all ["li"] Option.none arSec).all annualOKli

/-- A page with a lone `div` and no `h1`. -/
def soupNoH1 : Node :=
  .elem "[document]" [] [] [.elem "div" [] [] [.text (pyStr "hello")]]

/-- A minimal page with an `h1`. -/
def soupWithH1 : Node :=
  .elem "[document]" [] [] [.elem "h1" [] [] [.text (pyStr "ACME Ltd")]]

/-- A `th` header cell. -/
def thNode (s : PS) : Node := .elem "th" [] [] [.text s]

/-- A `td` data cell. -/
def tdNode (s : PS) : Node := .elem "td" [] [] [.text s]

/-- The header `tr` of a table. -/
def headerRow (hs : List PS) : Node := .elem "tr" [] [] (hs.map thNode)

/-- A data `tr` of a table. -/
def trRow (cs : List PS) : Node := .elem "tr" [] [] (cs.map tdNode)

/-- An `h2` heading. -/
def h2Node (s : PS) : Node := .elem "h2" [] [] [.text s]

/-- A `table.data-table` with a header row and the given data rows. -/
def dataTable (hs : List PS) (rows : List (List PS)) : Node :=
  .elem "table" ["data-table"] [] (headerRow hs :: rows.map trRow)

/-- A page with a far heading, a near heading and one data table. -/
def tableDoc (far hN : PS) (hs : List PS) (rows : List (List PS)) : Node :=
  .elem "[document]" [] [] [h2Node far, h2Node hN, dataTable hs rows]

/-- A concall list item holding one `button.concall-link` with a label and
a relative `data-url`. -/
def concallButtonLi (lbl p : PS) : Node :=
  .elem "li" [] []
    [.elem "button" ["concall-link"] [("data-url", p)] [.text lbl]]

/-- A page whose only content is the concalls document section with one
button entry. -/
def concallsDoc (lbl p : PS) : Node :=
  .elem "[document]" [] []
    [.elem "div" ["documents", "concalls"] []
      [.elem "ul" ["list-links"] [] [concallButtonLi lbl p]]]

/-! ## Lemmas and claim theorems -/

theorem collapseLitN_cons_ne (c : Nat) (hc : c ≠ 92) (b : Bool) (l : PS) :
    collapseLitN b (c :: l) = c :: collapseLitN false l := by
  rw [collapseLitN.eq_def]
  split
  · rename_i heq
    exact absurd heq (by simp)
  · rename_i heq
    simp only [List.cons.injEq] at heq
    exact absurd heq.1 hc
  · rename_i heq
    simp only [List.cons.injEq] at heq
    obtain ⟨rfl, rfl⟩ := heq
    rfl

theorem collapseLitN_append (s t : PS) (h : ∀ c ∈ s, c ≠ 92) :
    collapseLitN false (s ++ t) = s ++ collapseLitN false t := by
  induction s with
  | nil => rfl
  | cons c s ih =>
    rw [List.cons_append, collapseLitN_cons_ne c (h c (List.mem_cons_self c s)),
        ih (fun x hx => h x (List.mem_cons_of_mem c hx)), List.cons_append]

theorem collapseLitN_id (s : PS) (h : ∀ c ∈ s, c ≠ 92) : collapseLitN false s = s := by
  have h2 := collapseLitN_append s [] h
  rw [List.append_nil] at h2
  rw [h2, show collapseLitN false ([] : PS) = [] from rfl, List.append_nil]

theorem mem_collapseLitN (b : Bool) (s : PS) (c : Nat) (hm : c ∈ collapseLitN b s) :
    c ∈ s ∨ c = 10 := by
  induction b, s using collapseLitN.induct with
  | case1 => exact absurd hm (by simp [collapseLitN])
  | case2 rest ih =>
    rcases ih hm with h | h
    · exact Or.inl (by simp [h])
    · exact Or.inr h
  | case3 b rest hb ih =>
    rw [collapseLitN] at hm
    simp only [if_neg hb] at hm
    rcases List.mem_cons.1 hm with h | h
    · exact Or.inr h
    · rcases ih h with h2 | h2
      · exact Or.inl (by simp [h2])
      · exact Or.inr h2
  | case4 b c2 rest hne ih =>
    rw [collapseLitN.eq_def] at hm
    split at hm
    · simp at hm
    · rename_i heq
      simp only [List.cons.injEq] at heq
      exact (hne _ heq.1 heq.2).elim
    · rename_i heq
      simp only [List.cons.injEq] at heq
      obtain ⟨rfl, rfl⟩ := heq
      rcases List.mem_cons.1 hm with h | h
      · exact Or.inl (by simp [h])
      · rcases ih h with h2 | h2
        · exact Or.inl (List.mem_cons_of_mem _ h2)
        · exact Or.inr h2

theorem utf8Char_ascii (c : Nat) (h : c < 128) : utf8Char c = some [c] := by
  unfold utf8Char
  rw [if_pos h]

theorem utf8Encode_append_ascii (s t : PS) (h : ∀ c ∈ s, c < 128) :
    utf8Encode (s ++ t) = (fun bs => s ++ bs) <$> utf8Encode t := by
  induction s with
  | nil => rw [List.nil_append]; cases h2 : utf8Encode t <;> simp [h2]
  | cons c s ih =>
    rw [List.cons_append]
    have hc := utf8Char_ascii c (h c (List.mem_cons_self c s))
    have ih2 := ih (fun x hx => h x (List.mem_cons_of_mem c hx))
    simp only [utf8Encode, hc, ih2, Option.bind_eq_bind, Option.some_bind]
    cases utf8Encode t <;> simp

theorem utf8Encode_ascii (s : PS) (h : ∀ c ∈ s, c < 128) : utf8Encode s = some s := by
  have h2 := utf8Encode_append_ascii s [] h
  rw [List.append_nil] at h2
  rw [h2, show utf8Encode ([] : PS) = some [] from rfl]
  simp

theorem uEscDecode_cons_ne (b : Nat) (hb : b ≠ 92) (l : List Nat) :
    uEscDecode (b :: l) = (b :: ·) <$> uEscDecode l := by
  rw [uEscDecode.eq_def]
  split
  · rename_i heq
    exact absurd heq (by simp)
  · rename_i heq
    simp only [List.cons.injEq] at heq
    exact absurd heq.1 hb
  · rename_i heq
    simp only [List.cons.injEq] at heq
    obtain ⟨rfl, rfl⟩ := heq
    rfl

theorem uEscDecode_append_no92 (s t : List Nat) (h : ∀ c ∈ s, c ≠ 92) :
    uEscDecode (s ++ t) = (fun u => s ++ u) <$> uEscDecode t := by
  induction s with
  | nil => rw [List.nil_append]; cases h2 : uEscDecode t <;> simp [h2]
  | cons c s ih =>
    rw [List.cons_append, uEscDecode_cons_ne c (h c (List.mem_cons_self c s)),
        ih (fun x hx => h x (List.mem_cons_of_mem c hx))]
    cases uEscDecode t <;> simp

theorem uEscDecode_no92 (s : List Nat) (h : ∀ c ∈ s, c ≠ 92) : uEscDecode s = some s := by
  have h2 := uEscDecode_append_no92 s [] h
  rw [List.append_nil] at h2
  rw [h2, show uEscDecode ([] : List Nat) = some [] from rfl]
  simp

theorem collapseRuns_cons (p : Nat → Bool) (r : Nat) (b : Bool) (c : Nat) (l : PS) :
    collapseRuns p r b (c :: l) =
      if p c then
        (if b then collapseRuns p r true l else r :: collapseRuns p r true l)
      else c :: collapseRuns p r false l := rfl

theorem collapseRuns_append_notP (p : Nat → Bool) (r : Nat) (s t : PS)
    (h : ∀ c ∈ s, p c = false) :
    collapseRuns p r false (s ++ t) = s ++ collapseRuns p r false t := by
  induction s with
  | nil => rfl
  | cons c s ih =>
    rw [List.cons_append, collapseRuns_cons,
        if_neg (by simp [h c (List.mem_cons_self c s)]),
        ih (fun x hx => h x (List.mem_cons_of_mem c hx)), List.cons_append]

theorem collapseRuns_id_notP (p : Nat → Bool) (r : Nat) (s : PS)
    (h : ∀ c ∈ s, p c = false) : collapseRuns p r false s = s := by
  have h2 := collapseRuns_append_notP p r s [] h
  rw [List.append_nil] at h2
  rw [h2, show collapseRuns p r false [] = [] from rfl, List.append_nil]

theorem mem_collapseRuns (p : Nat → Bool) (r : Nat) (s : PS) :
    ∀ (b : Bool) (c : Nat), c ∈ collapseRuns p r b s → (c ∈ s ∧ p c = false) ∨ c = r := by
  induction s with
  | nil => intro b c hm; simp [collapseRuns] at hm
  | cons hd tl ih =>
    intro b c hm
    rw [collapseRuns_cons] at hm
    by_cases hp : p hd
    · rw [if_pos hp] at hm
      have step : c ∈ r :: collapseRuns p r true tl → (c ∈ hd :: tl ∧ p c = false) ∨ c = r := by
        intro hm2
        rcases List.mem_cons.1 hm2 with h | h
        · exact Or.inr h
        · rcases ih true c h with ⟨h1, h2⟩ | h1
          · exact Or.inl ⟨List.mem_cons_of_mem _ h1, h2⟩
          · exact Or.inr h1
      by_cases hb : b
      · rw [if_pos hb] at hm
        exact step (List.mem_cons_of_mem _ hm)
      · rw [if_neg hb] at hm
        exact step hm
    · rw [if_neg hp] at hm
      rcases List.mem_cons.1 hm with h | h
      · subst h
        exact Or.inl ⟨List.mem_cons_self _ _, by simpa using hp⟩
      · rcases ih false c h with ⟨h1, h2⟩ | h1
        · exact Or.inl ⟨List.mem_cons_of_mem _ h1, h2⟩
        · exact Or.inr h1

theorem collapseRuns_true_head (p : Nat → Bool) (r : Nat) (s : PS) :
    ∀ c, (collapseRuns p r true s).head? = some c → p c = false := by
  induction s with
  | nil => intro c hc; simp [collapseRuns] at hc
  | cons hd tl ih =>
    intro c hc
    rw [collapseRuns_cons] at hc
    by_cases hp : p hd
    · rw [if_pos hp, if_pos rfl] at hc
      exact ih c hc
    · rw [if_neg hp] at hc
      simp only [List.head?_cons, Option.some.injEq] at hc
      subst hc
      simpa using hp

theorem collapseRuns_chain (p : Nat → Bool) (r : Nat) (s : PS) :
    ∀ b, (collapseRuns p r b s).Chain' (fun a b2 => ¬(p a = true ∧ p b2 = true)) := by
  induction s with
  | nil => intro b; simp [collapseRuns]
  | cons hd tl ih =>
    intro b
    rw [collapseRuns_cons]
    by_cases hp : p hd
    · rw [if_pos hp]
      have hcons : (r :: collapseRuns p r true tl).Chain'
          (fun a b2 => ¬(p a = true ∧ p b2 = true)) := by
        rw [List.chain'_cons']
        refine ⟨?_, ih true⟩
        intro y hy hcon
        exact absurd hcon.2 (by simp [collapseRuns_true_head p r tl y hy])
      by_cases hb : b
      · rw [if_pos hb]
        exact (List.chain'_cons'.1 hcons).2
      · rw [if_neg hb]
        exact hcons
    · rw [if_neg hp]
      rw [List.chain'_cons']
      refine ⟨?_, ih false⟩
      intro y hy hcon
      exact absurd hcon.1 (by simp [hp])

theorem collapseRuns_flag_of_head (p : Nat → Bool) (r : Nat) (s : PS)
    (h : ∀ c, s.head? = some c → p c = false) :
    collapseRuns p r true s = collapseRuns p r false s := by
  cases s with
  | nil => rfl
  | cons hd tl =>
    have hp : p hd = false := h hd rfl
    rw [collapseRuns_cons, collapseRuns_cons, if_neg (by simp [hp]), if_neg (by simp [hp])]

theorem collapseRuns_id_chain (p : Nat → Bool) (r : Nat) (s : PS)
    (hval : ∀ c ∈ s, p c = true → c = r)
    (hch : s.Chain' (fun a b2 => ¬(p a = true ∧ p b2 = true))) :
    collapseRuns p r false s = s := by
  induction s with
  | nil => rfl
  | cons hd tl ih =>
    rw [collapseRuns_cons]
    have htl := (List.chain'_cons'.1 hch).2
    have hhd := (List.chain'_cons'.1 hch).1
    by_cases hp : p hd
    · rw [if_pos hp]
      have hr : hd = r := hval hd (List.mem_cons_self _ _) hp
      have hhead : ∀ c, tl.head? = some c → p c = false := by
        intro c hc
        by_contra hcp
        exact hhd c hc ⟨hp, by simpa using hcp⟩
      rw [collapseRuns_flag_of_head p r tl hhead,
          ih (fun x hx hpx => hval x (List.mem_cons_of_mem _ hx) hpx) htl, hr]
      simp
    · rw [if_neg hp, ih (fun x hx hpx => hval x (List.mem_cons_of_mem _ hx) hpx) htl]

theorem map_nbspFix_id (s : PS) (h : ∀ c ∈ s, c ≠ 160) : s.map nbspFix = s := by
  induction s with
  | nil => rfl
  | cons c s ih =>
    rw [List.map_cons, ih (fun x hx => h x (List.mem_cons_of_mem c hx))]
    simp [nbspFix, h c (List.mem_cons_self c s)]

theorem head_not_10 (c0 : Nat) (rest : PS)
    (hno : ∀ r1, c0 = 13 → rest = 10 :: r1 → False) :
    ¬(c0 = 13 ∧ rest.head? = some 10) := by
  rintro ⟨rfl, hh⟩
  cases rest with
  | nil => simp at hh
  | cons a r =>
    simp only [List.head?_cons, Option.some.injEq] at hh
    exact hno r rfl (by rw [hh])

theorem splitlinesAux_nil (cur : PS) :
    splitlinesAux cur [] = if cur = [] then [] else [cur.reverse] := rfl

theorem splitlinesAux_cons_CRLF (cur rest : PS) :
    splitlinesAux cur (13 :: 10 :: rest) = cur.reverse :: splitlinesAux [] rest := rfl

theorem splitlinesAux_cons_notLB (cur : PS) (c : Nat) (rest : PS)
    (hc : isLineBreakCp c = false) :
    splitlinesAux cur (c :: rest) = splitlinesAux (c :: cur) rest := by
  rw [splitlinesAux.eq_def]
  split
  · rename_i heq
    exact absurd heq (by simp)
  · rename_i heq
    simp only [List.cons.injEq] at heq
    rw [heq.1] at hc
    exact absurd hc (by decide)
  · rename_i heq
    simp only [List.cons.injEq] at heq
    obtain ⟨rfl, rfl⟩ := heq
    rw [if_neg (by simp [hc])]

theorem splitlinesAux_cons_LB (cur : PS) (c : Nat) (rest : PS)
    (hc : isLineBreakCp c = true) (hno : ¬(c = 13 ∧ rest.head? = some 10)) :
    splitlinesAux cur (c :: rest) = cur.reverse :: splitlinesAux [] rest := by
  rw [splitlinesAux.eq_def]
  split
  · rename_i heq
    exact absurd heq (by simp)
  · rename_i heq
    simp only [List.cons.injEq] at heq
    exact absurd ⟨heq.1, by rw [heq.2]; rfl⟩ hno
  · rename_i heq
    simp only [List.cons.injEq] at heq
    obtain ⟨rfl, rfl⟩ := heq
    rw [if_pos hc]

theorem splitlinesAux_append_noLB (s : PS) (h : ∀ c ∈ s, isLineBreakCp c = false) :
    ∀ (cur t : PS), splitlinesAux cur (s ++ t) = splitlinesAux (s.reverse ++ cur) t := by
  induction s with
  | nil => intro cur t; rfl
  | cons c s ih =>
    intro cur t
    rw [List.cons_append, splitlinesAux_cons_notLB cur c _ (h c (List.mem_cons_self c s)),
        ih (fun x hx => h x (List.mem_cons_of_mem c hx)) (c :: cur) t]
    congr 1
    simp

theorem pySplitlines_noLB (s : PS) (h : ∀ c ∈ s, isLineBreakCp c = false) :
    pySplitlines s = if s = [] then [] else [s] := by
  unfold pySplitlines
  conv_lhs => rw [show s = s ++ [] by simp]
  rw [splitlinesAux_append_noLB s h [] [], List.append_nil, splitlinesAux_nil]
  by_cases hs : s = []
  · simp [hs]
  · rw [if_neg (by simpa using hs), if_neg hs, List.reverse_reverse]

theorem splitlinesAux_head : ∀ (cur t : PS), cur ≠ [] →
    ∃ w ls, splitlinesAux cur t = (cur.reverse ++ w) :: ls := by
  intro cur t
  induction cur, t using splitlinesAux.induct with
  | case1 =>
    intro hne
    exact absurd rfl hne
  | case2 cur hne =>
    intro _
    refine ⟨[], [], ?_⟩
    rw [splitlinesAux_nil, if_neg hne]
    simp
  | case3 cur rest ih =>
    intro _
    exact ⟨[], splitlinesAux [] rest, by rw [splitlinesAux_cons_CRLF]; simp⟩
  | case4 cur c rest hno hLB ih =>
    intro _
    refine ⟨[], splitlinesAux [] rest, ?_⟩
    rw [splitlinesAux_cons_LB cur c rest hLB (head_not_10 c rest hno)]
    simp
  | case5 cur c rest hno hLB ih =>
    intro hne
    obtain ⟨w, ls, hw⟩ := ih (by simp)
    refine ⟨c :: w, ls, ?_⟩
    rw [splitlinesAux_cons_notLB cur c rest (by simpa using hLB), hw]
    congr 1
    simp

theorem splitlinesAux_mem : ∀ (cur t : PS), (∀ c ∈ cur, isLineBreakCp c = false) →
    ∀ l ∈ splitlinesAux cur t, ∀ c ∈ l, (c ∈ cur ∨ c ∈ t) ∧ isLineBreakCp c = false := by
  intro cur t
  induction cur, t using splitlinesAux.induct with
  | case1 =>
    intro _ l hl
    rw [splitlinesAux_nil] at hl
    simp at hl
  | case2 cur hne =>
    intro hcur l hl
    rw [splitlinesAux_nil, if_neg hne] at hl
    simp only [List.mem_singleton] at hl
    subst hl
    intro c hc
    rw [List.mem_reverse] at hc
    exact ⟨Or.inl hc, hcur c hc⟩
  | case3 cur rest ih =>
    intro hcur l hl
    rw [splitlinesAux_cons_CRLF] at hl
    rcases List.mem_cons.1 hl with rfl | hl2
    · intro c hc
      rw [List.mem_reverse] at hc
      exact ⟨Or.inl hc, hcur c hc⟩
    · intro c hc
      obtain ⟨hmem, hLBc⟩ := ih (by simp) l hl2 c hc
      rcases hmem with h0 | h0
      · simp at h0
      · exact ⟨Or.inr (by simp [h0]), hLBc⟩
  | case4 cur c0 rest hno hLB ih =>
    intro hcur l hl
    rw [splitlinesAux_cons_LB cur c0 rest hLB (head_not_10 c0 rest hno)] at hl
    rcases List.mem_cons.1 hl with rfl | hl2
    · intro c hc
      rw [List.mem_reverse] at hc
      exact ⟨Or.inl hc, hcur c hc⟩
    · intro c hc
      obtain ⟨hmem, hLBc⟩ := ih (by simp) l hl2 c hc
      rcases hmem with h0 | h0
      · simp at h0
      · exact ⟨Or.inr (by simp [h0]), hLBc⟩
  | case5 cur c0 rest hno hLB ih =>
    intro hcur l hl
    rw [splitlinesAux_cons_notLB cur c0 rest (by simpa using hLB)] at hl
    have hcur2 : ∀ c ∈ c0 :: cur, isLineBreakCp c = false := by
      intro c hc
      rcases List.mem_cons.1 hc with rfl | hc2
      · simpa using hLB
      · exact hcur c hc2
    intro c hc
    obtain ⟨hmem, hLBc⟩ := ih hcur2 l hl c hc
    refine ⟨?_, hLBc⟩
    rcases hmem with h0 | h0
    · rcases List.mem_cons.1 h0 with rfl | h1
      · exact Or.inr (List.mem_cons_self _ _)
      · exact Or.inl h1
    · exact Or.inr (List.mem_cons_of_mem _ h0)

theorem splitlinesAux_chain {R : Nat → Nat → Prop} : ∀ (cur t : PS),
    (cur.reverse ++ t).Chain' R → ∀ l ∈ splitlinesAux cur t, l.Chain' R := by
  intro cur t
  induction cur, t using splitlinesAux.induct with
  | case1 =>
    intro _ l hl
    rw [splitlinesAux_nil] at hl
    simp at hl
  | case2 cur hne =>
    intro h l hl
    rw [splitlinesAux_nil, if_neg hne] at hl
    simp only [List.mem_singleton] at hl
    subst hl
    exact h.prefix (List.prefix_append _ _)
  | case3 cur rest ih =>
    intro h l hl
    rw [splitlinesAux_cons_CRLF] at hl
    rcases List.mem_cons.1 hl with rfl | hl2
    · exact h.prefix (List.prefix_append _ _)
    · refine ih ?_ l hl2
      have hs : rest <:+ cur.reverse ++ 13 :: 10 :: rest := ⟨cur.reverse ++ [13, 10], by simp⟩
      simpa using h.suffix hs
  | case4 cur c0 rest hno hLB ih =>
    intro h l hl
    rw [splitlinesAux_cons_LB cur c0 rest hLB (head_not_10 c0 rest hno)] at hl
    rcases List.mem_cons.1 hl with rfl | hl2
    · exact h.prefix (List.prefix_append _ _)
    · refine ih ?_ l hl2
      have hs : rest <:+ cur.reverse ++ c0 :: rest := ⟨cur.reverse ++ [c0], by simp⟩
      simpa using h.suffix hs
  | case5 cur c0 rest hno hLB ih =>
    intro h l hl
    rw [splitlinesAux_cons_notLB cur c0 rest (by simpa using hLB)] at hl
    refine ih ?_ l hl
    have heq : (c0 :: cur).reverse ++ rest = cur.reverse ++ c0 :: rest := by simp
    rw [heq]
    exact h

theorem dropWhile_head_false (p : Nat → Bool) (l : PS) :
    ∀ c, (l.dropWhile p).head? = some c → p c = false := by
  induction l with
  | nil => intro c hc; simp at hc
  | cons hd tl ih =>
    intro c hc
    by_cases hp : p hd
    · rw [List.dropWhile_cons_of_pos hp] at hc
      exact ih c hc
    · rw [List.dropWhile_cons_of_neg hp] at hc
      simp only [List.head?_cons, Option.some.injEq] at hc
      subst hc
      simpa using hp

theorem dropWhile_eq_self_of_head (p : Nat → Bool) (l : PS)
    (h : ∀ c, l.head? = some c → p c = false) : l.dropWhile p = l := by
  cases l with
  | nil => rfl
  | cons hd tl => exact List.dropWhile_cons_of_neg (by simp [h hd rfl])

theorem dropWhile_isSuffix (p : Nat → Bool) (l : PS) : l.dropWhile p <:+ l := by
  induction l with
  | nil => exact List.suffix_refl _
  | cons hd tl ih =>
    by_cases hp : p hd
    · rw [List.dropWhile_cons_of_pos hp]
      exact ih.trans (List.suffix_cons hd tl)
    · rw [List.dropWhile_cons_of_neg hp]

theorem dropWhile_append_all (p : Nat → Bool) (a b : PS) (h : ∀ c ∈ a, p c = true) :
    (a ++ b).dropWhile p = b.dropWhile p := by
  induction a with
  | nil => rfl
  | cons hd tl ih =>
    rw [List.cons_append, List.dropWhile_cons_of_pos (h hd (List.mem_cons_self _ _))]
    exact ih (fun c hc => h c (List.mem_cons_of_mem _ hc))

theorem dropWhile_append_of_ne_nil (p : Nat → Bool) (a b : PS) (h : a.dropWhile p ≠ []) :
    (a ++ b).dropWhile p = a.dropWhile p ++ b := by
  induction a with
  | nil => exact absurd rfl h
  | cons hd tl ih =>
    by_cases hp : p hd
    · rw [List.cons_append, List.dropWhile_cons_of_pos hp, List.dropWhile_cons_of_pos hp]
      exact ih (by rwa [List.dropWhile_cons_of_pos hp] at h)
    · rw [List.cons_append, List.dropWhile_cons_of_neg hp, List.dropWhile_cons_of_neg hp,
          List.cons_append]

theorem pyStrip_prefix_drop (s : PS) : pyStrip s <+: s.dropWhile isSpaceCp := by
  unfold pyStrip
  have h0 := dropWhile_isSuffix isSpaceCp (s.dropWhile isSpaceCp).reverse
  have h1 := List.reverse_prefix.2 h0
  rwa [List.reverse_reverse] at h1

theorem pyStrip_sublist (s : PS) : pyStrip s <:+: s :=
  (pyStrip_prefix_drop s).isInfix.trans (dropWhile_isSuffix isSpaceCp s).isInfix

theorem pyStrip_chain {R : Nat → Nat → Prop} (s : PS) (h : s.Chain' R) :
    (pyStrip s).Chain' R := h.infix (pyStrip_sublist s)

theorem pyStrip_head_not_space (s : PS) :
    ∀ c, (pyStrip s).head? = some c → isSpaceCp c = false := by
  intro c hc
  have hpre := pyStrip_prefix_drop s
  cases hvr : pyStrip s with
  | nil => rw [hvr] at hc; simp at hc
  | cons x xs =>
    rw [hvr] at hc
    simp only [List.head?_cons, Option.some.injEq] at hc
    rw [hvr] at hpre
    obtain ⟨t2, ht2⟩ := hpre
    refine dropWhile_head_false isSpaceCp s c ?_
    rw [← ht2, ← hc]
    rfl

theorem pyStrip_last_not_space (s : PS) :
    ∀ c, (pyStrip s).reverse.head? = some c → isSpaceCp c = false := by
  intro c hc
  unfold pyStrip at hc
  rw [List.reverse_reverse] at hc
  exact dropWhile_head_false _ _ c hc

theorem pyStrip_eq_self (s : PS)
    (hh : ∀ c, s.head? = some c → isSpaceCp c = false)
    (hl : ∀ c, s.reverse.head? = some c → isSpaceCp c = false) : pyStrip s = s := by
  unfold pyStrip
  rw [dropWhile_eq_self_of_head _ s hh, dropWhile_eq_self_of_head _ s.reverse hl,
      List.reverse_reverse]

theorem pyStrip_append_left (s2 w : PS) (hne : s2 ≠ [])
    (h : ∀ c ∈ s2, isSpaceCp c = false) :
    pyStrip (s2 ++ w) = s2 ++ (w.reverse.dropWhile isSpaceCp).reverse := by
  unfold pyStrip
  have h1 : (s2 ++ w).dropWhile isSpaceCp = s2 ++ w := by
    apply dropWhile_eq_self_of_head
    intro c hc
    cases s2 with
    | nil => exact absurd rfl hne
    | cons x xs =>
      rw [List.cons_append] at hc
      simp only [List.head?_cons, Option.some.injEq] at hc
      subst hc
      exact h _ (List.mem_cons_self _ _)
  rw [h1, List.reverse_append]
  by_cases hw : w.reverse.dropWhile isSpaceCp = []
  · have hall : ∀ c ∈ w.reverse, isSpaceCp c = true :=
      fun c hc => List.dropWhile_eq_nil_iff.1 hw c hc
    rw [dropWhile_append_all _ _ _ hall,
        dropWhile_eq_self_of_head _ s2.reverse
          (fun c hc => h c (by rw [← List.mem_reverse]; exact List.mem_of_mem_head? hc)),
        List.reverse_reverse, hw]
    simp
  · rw [dropWhile_append_of_ne_nil _ _ _ hw, List.reverse_append, List.reverse_reverse]

theorem intercalate32_nil : List.intercalate [32] ([] : List PS) = [] := rfl

theorem intercalate32_single (a : PS) : List.intercalate [32] [a] = a := by
  simp [List.intercalate]

theorem intercalate32_cons2 (a b : PS) (ls : List PS) :
    List.intercalate [32] (a :: b :: ls) = a ++ 32 :: List.intercalate [32] (b :: ls) := by
  simp [List.intercalate, List.intersperse_cons_cons]

theorem intercalate32_head_ex (a : PS) (ls : List PS) :
    ∃ u, List.intercalate [32] (a :: ls) = a ++ u := by
  cases ls with
  | nil => exact ⟨[], by rw [intercalate32_single]; simp⟩
  | cons b ls => exact ⟨32 :: List.intercalate [32] (b :: ls), intercalate32_cons2 a b ls⟩

theorem mem_intercalate32 (c : Nat) : ∀ (ls : List PS), c ∈ List.intercalate [32] ls →
    c = 32 ∨ ∃ l ∈ ls, c ∈ l := by
  intro ls
  induction ls with
  | nil => intro h; rw [intercalate32_nil] at h; simp at h
  | cons a ls ih =>
    intro h
    cases ls with
    | nil =>
      rw [intercalate32_single] at h
      exact Or.inr ⟨a, List.mem_cons_self _ _, h⟩
    | cons b ls2 =>
      rw [intercalate32_cons2] at h
      rcases List.mem_append.1 h with h0 | h0
      · exact Or.inr ⟨a, List.mem_cons_self _ _, h0⟩
      · rcases List.mem_cons.1 h0 with rfl | h1
        · exact Or.inl rfl
        · rcases ih h1 with h2 | ⟨l, hl, hcl⟩
          · exact Or.inl h2
          · exact Or.inr ⟨l, List.mem_cons_of_mem _ hl, hcl⟩

theorem chain_intercalate32 : ∀ (ls : List PS),
    (∀ l ∈ ls, l ≠ [] ∧ l.Chain' (fun a b => ¬(blankP a = true ∧ blankP b = true)) ∧
      (∀ c, l.head? = some c → blankP c = false) ∧
      (∀ c, l.reverse.head? = some c → blankP c = false)) →
    (List.intercalate [32] ls).Chain' (fun a b => ¬(blankP a = true ∧ blankP b = true)) := by
  intro ls
  induction ls with
  | nil => intro _; rw [intercalate32_nil]; simp
  | cons a ls ih =>
    intro h
    cases ls with
    | nil =>
      rw [intercalate32_single]
      exact (h a (List.mem_cons_self _ _)).2.1
    | cons b ls2 =>
      rw [intercalate32_cons2, List.chain'_append]
      obtain ⟨hane, hach, hahd, halast⟩ := h a (List.mem_cons_self _ _)
      refine ⟨hach, ?_, ?_⟩
      · rw [List.chain'_cons']
        refine ⟨?_, ih (fun l hl => h l (List.mem_cons_of_mem _ hl))⟩
        intro y hy hcon
        obtain ⟨u, hu⟩ := intercalate32_head_ex b ls2
        obtain ⟨hbne, hbch, hbhd, hblast⟩ :=
          h b (List.mem_cons_of_mem _ (List.mem_cons_self _ _))
        rw [hu] at hy
        cases hb : b with
        | nil => exact absurd hb hbne
        | cons x xs =>
          rw [hb, List.cons_append] at hy
          simp only [List.head?_cons, Option.mem_def, Option.some.injEq] at hy
          subst hy
          exact absurd hcon.2 (by simp [hbhd x (by rw [hb]; rfl)])
      · intro x hx y hy
        simp only [List.head?_cons, Option.mem_def, Option.some.injEq] at hy
        subst hy
        intro hcon
        have hx2 : a.reverse.head? = some x := by
          rw [List.head?_reverse]
          exact hx
        exact absurd hcon.1 (by simp [halast x hx2])

theorem last_not_space_intercalate32 : ∀ (ls : List PS),
    (∀ l ∈ ls, l ≠ [] ∧ ∀ c, l.reverse.head? = some c → isSpaceCp c = false) →
    ∀ c, (List.intercalate [32] ls).reverse.head? = some c → isSpaceCp c = false := by
  intro ls
  induction ls with
  | nil => intro _ c hc; rw [intercalate32_nil] at hc; simp at hc
  | cons a ls ih =>
    intro h c hc
    cases ls with
    | nil =>
      rw [intercalate32_single] at hc
      exact (h a (List.mem_cons_self _ _)).2 c hc
    | cons b ls2 =>
      rw [intercalate32_cons2] at hc
      obtain ⟨u, hu⟩ := intercalate32_head_ex b ls2
      have hbne := (h b (List.mem_cons_of_mem _ (List.mem_cons_self _ _))).1
      have hXne : List.intercalate [32] (b :: ls2) ≠ [] := by
        rw [hu]
        intro hcon
        exact hbne (List.append_eq_nil.1 hcon).1
      rw [List.head?_reverse, List.getLast?_append] at hc
      have h32 : (32 :: List.intercalate [32] (b :: ls2)).getLast?
          = (List.intercalate [32] (b :: ls2)).getLast? := by
        cases hX : List.intercalate [32] (b :: ls2) with
        | nil => exact absurd hX hXne
        | cons x0 xs0 => rw [List.getLast?_cons_cons]
      rw [h32] at hc
      have hlast : (List.intercalate [32] (b :: ls2)).getLast? = some c := by
        cases hX : (List.intercalate [32] (b :: ls2)).getLast? with
        | none =>
          rw [List.getLast?_eq_none_iff] at hX
          exact absurd hX hXne
        | some z =>
          rw [hX] at hc
          simpa using hc
      refine ih (fun l hl => h l (List.mem_cons_of_mem _ hl)) c ?_
      rw [List.head?_reverse]
      exact hlast

theorem except_bind_ok {e0 α β : Type} (a : α) (f : α → Except e0 β) :
    (Except.ok a >>= f) = f a := rfl

theorem except_bind_error {e0 α β : Type} (e : e0) (f : α → Except e0 β) :
    ((Except.error e : Except e0 α) >>= f) = Except.error e := rfl

theorem except_pure {e0 α : Type} (a : α) : (pure a : Except e0 α) = Except.ok a := rfl

theorem screenerPhase_eq_fold (a : IngestArgs) (st0 : DedupState) :
    screenerPhase a st0 = screenerFold a st0 a.screenerExtracts := rfl

theorem screenerFold_skip_error (a : IngestArgs) (st0 : DedupState) (e : PyErr)
    (l1 l2 : List (Except PyErr (List (PS × PyVal)))) :
    screenerFold a st0 (l1 ++ .error e :: l2) = screenerFold a st0 (l1 ++ l2) := by
  induction l1 generalizing st0 with
  | nil => rfl
  | cons x l1 ih =>
    simp only [screenerFold, List.cons_append, List.foldl_cons]
    exact ih _

/-- Any invariant on the accumulated state survives an `Except` fold whose
step preserves it. -/
theorem foldlM_inv {α σ : Type} (P : σ → Prop) (f : σ → α → Except PyErr σ)
    (hf : ∀ s x s', P s → f s x = .ok s' → P s') :
    ∀ (l : List α) (s0 s1 : σ), P s0 → l.foldlM f s0 = .ok s1 → P s1 := by
  intro l
  induction l with
  | nil =>
    intro s0 s1 h0 hr
    simp only [List.foldlM_nil, except_pure] at hr
    cases hr
    exact h0
  | cons x l ih =>
    intro s0 s1 h0 hr
    simp only [List.foldlM_cons] at hr
    cases hx : f s0 x with
    | error e => rw [hx, except_bind_error] at hr; cases hr
    | ok s => rw [hx, except_bind_ok] at hr; exact ih s s1 (hf s0 x s h0 hx) hr

theorem dedupStep_chunkOK (sourceType : PS) (st : DedupState) (c : PyDoc)
    (h : ∀ x ∈ st.2, chunkOK x) : ∀ x ∈ (dedupStep sourceType st c).2, chunkOK x := by
  intro x hx
  simp only [dedupStep] at hx
  split at hx
  · exact h x hx
  · next hpass =>
    split at hx
    · exact h x hx
    · simp only [List.mem_append, List.mem_singleton] at hx
      rcases hx with hx | rfl
      · exact h x hx
      · push_neg at hpass
        exact ⟨hpass.1, hpass.2⟩

theorem split_and_dedup_chunkOK (chunks : List PyDoc) (st : DedupState) (sourceType : PS)
    (h : ∀ x ∈ st.2, chunkOK x) :
    ∀ x ∈ (split_and_dedup_docs chunks st sourceType).2, chunkOK x := by
  induction chunks generalizing st with
  | nil => exact h
  | cons c chunks ih =>
    simp only [split_and_dedup_docs, List.foldl_cons] at *
    exact ih _ (dedupStep_chunkOK sourceType st c h)

theorem webPhase_chunkOK (a : IngestArgs) (st : DedupState)
    (hr : webPhase a = .ok st) : ∀ x ∈ st.2, chunkOK x := by
  unfold webPhase at hr
  cases hw : a.webDocs with
  | error e => rw [hw, except_bind_error] at hr; cases hr
  | ok docs =>
    rw [hw, except_bind_ok] at hr
    refine foldlM_inv (fun s => ∀ x ∈ s.2, chunkOK x) _ ?_ docs ([], []) st (by simp) hr
    intro s doc s' hs hstep
    cases hc : cleanDoc doc with
    | none => rw [hc] at hstep; cases hstep
    | some d =>
      rw [hc] at hstep
      simp only [optErr, except_bind_ok, except_pure] at hstep
      cases hstep
      exact split_and_dedup_chunkOK _ _ _ hs

theorem pdfPhase_chunkOK (a : IngestArgs) (st0 st : DedupState)
    (h0 : ∀ x ∈ st0.2, chunkOK x) (hr : pdfPhase a st0 = .ok st) :
    ∀ x ∈ st.2, chunkOK x := by
  unfold pdfPhase at hr
  refine foldlM_inv (fun s => ∀ x ∈ s.2, chunkOK x) _ ?_ a.pdfLoads st0 st h0 hr
  intro s load s' hs hstep
  cases hl : load with
  | error e => rw [hl, except_bind_error] at hstep; cases hstep
  | ok docs =>
    rw [hl, except_bind_ok] at hstep
    cases hc : cleanDocsAll docs with
    | none => rw [hc] at hstep; cases hstep
    | some ds =>
      rw [hc] at hstep
      simp only [optErr, except_bind_ok, except_pure] at hstep
      cases hstep
      exact split_and_dedup_chunkOK _ _ _ hs

theorem excelPhase_chunkOK (a : IngestArgs) (st0 st : DedupState)
    (h0 : ∀ x ∈ st0.2, chunkOK x) (hr : excelPhase a st0 = .ok st) :
    ∀ x ∈ st.2, chunkOK x := by
  unfold excelPhase at hr
  refine foldlM_inv (fun s => ∀ x ∈ s.2, chunkOK x) _ ?_ a.excelLoads st0 st h0 hr
  intro s load s' hs hstep
  cases hl : load with
  | error e => rw [hl, except_bind_error] at hstep; cases hstep
  | ok docs =>
    rw [hl, except_bind_ok, except_pure] at hstep
    cases hstep
    exact split_and_dedup_chunkOK _ _ _ hs

theorem screenerFold_chunkOK (a : IngestArgs)
    (exts : List (Except PyErr (List (PS × PyVal)))) :
    ∀ (st0 : DedupState), (∀ x ∈ st0.2, chunkOK x) →
      ∀ x ∈ (screenerFold a st0 exts).2, chunkOK x := by
  induction exts with
  | nil => intro st0 h0; exact h0
  | cons ext exts ih =>
    intro st0 h0
    simp only [screenerFold, List.foldl_cons]
    cases screenerTry a ext with
    | error e => exact ih st0 h0
    | ok chunks => exact ih _ (split_and_dedup_chunkOK chunks st0 _ h0)

theorem mem_map_keyOf_iff_filter_ne_nil (l : List PyDoc) (t : PS) :
    t ∈ l.map keyOf ↔ l.filter (fun c => keyOf c = t) ≠ [] := by
  rw [Ne, List.filter_eq_nil_iff]
  simp only [List.mem_map]
  constructor
  · rintro ⟨c, hc, rfl⟩ hall
    exact hall c hc (by simp)
  · intro h
    by_contra hno
    push_neg at hno
    exact h (fun c hc => by simp only [decide_eq_true_eq]; exact fun he => hno c hc he)

theorem filter_key_eq_nil (acc : List PyDoc) (t : PS) (h : t ∉ acc.map keyOf) :
    acc.filter (fun c => keyOf c = t) = [] := by
  by_contra hne
  exact h ((mem_map_keyOf_iff_filter_ne_nil acc t).2 hne)

theorem keyOf_tagChunk (st : PS) (c : PyDoc) : keyOf (tagChunk st c) = keyOf c := rfl

theorem dedupStep_cases (sourceType : PS) (st : DedupState) (c : PyDoc) :
    dedupStep sourceType st c =
      if chunkOK c then
        (if keyOf c ∈ st.1 then st
         else (keyOf c :: st.1, st.2 ++ [tagChunk sourceType c]))
      else st := by
  simp only [dedupStep, chunkOK, keyOf, tagChunk, already_exists, get_content_hash]
  by_cases h20 : (pyStrip c.page_content).length < 20
  · have hskip : (pyStrip c.page_content).length < 20 ∨
        ¬ (pyStrip c.page_content).any isAlnumCp := Or.inl h20
    have hnok : ¬ (20 ≤ (pyStrip c.page_content).length ∧
        (pyStrip c.page_content).any isAlnumCp) := fun hcon => Nat.not_lt.mpr hcon.1 h20
    rw [if_pos hskip, if_neg hnok]
  · by_cases hal : (pyStrip c.page_content).any isAlnumCp
    · have hskip : ¬ ((pyStrip c.page_content).length < 20 ∨
          ¬ (pyStrip c.page_content).any isAlnumCp) :=
        fun hcon => hcon.elim h20 (fun hna => hna hal)
      have hok : 20 ≤ (pyStrip c.page_content).length ∧
          (pyStrip c.page_content).any isAlnumCp := ⟨Nat.le_of_not_lt h20, hal⟩
      rw [if_neg hskip, if_pos hok]
    · have hskip : (pyStrip c.page_content).length < 20 ∨
          ¬ (pyStrip c.page_content).any isAlnumCp := Or.inr hal
      have hnok : ¬ (20 ≤ (pyStrip c.page_content).length ∧
          (pyStrip c.page_content).any isAlnumCp) := fun hcon => hal hcon.2
      rw [if_pos hskip, if_neg hnok]

theorem taggedPasses_cons (c : PyDoc) (l : List PyDoc) (st : PS) :
    taggedPasses (c :: l) st =
      if chunkOK c then tagChunk st c :: taggedPasses l st else taggedPasses l st := by
  simp only [taggedPasses, passesFilter, List.filter_cons]
  by_cases h : chunkOK c <;> simp [h]

theorem dedupStep_seen_inv (sourceType : PS) (st : DedupState) (c : PyDoc)
    (h : ∀ u, u ∈ st.1 ↔ u ∈ st.2.map keyOf) :
    ∀ u, u ∈ (dedupStep sourceType st c).1 ↔ u ∈ (dedupStep sourceType st c).2.map keyOf := by
  rw [dedupStep_cases]
  by_cases hc : chunkOK c
  · rw [if_pos hc]
    by_cases hk : keyOf c ∈ st.1
    · rw [if_pos hk]; exact h
    · rw [if_neg hk]
      intro u
      simp only [List.mem_cons, List.map_append, List.mem_append, List.map_cons,
        List.map_nil, keyOf_tagChunk, List.mem_singleton, h u]
      tauto
  · rw [if_neg hc]; exact h

theorem split_and_dedup_seen_inv (l : List PyDoc) (st : DedupState) (sourceType : PS)
    (h : ∀ u, u ∈ st.1 ↔ u ∈ st.2.map keyOf) :
    ∀ u, u ∈ (split_and_dedup_docs l st sourceType).1 ↔
      u ∈ (split_and_dedup_docs l st sourceType).2.map keyOf := by
  induction l generalizing st with
  | nil => exact h
  | cons c l ih =>
    simp only [split_and_dedup_docs, List.foldl_cons] at *
    exact ih _ (dedupStep_seen_inv sourceType st c h)

theorem split_and_dedup_filter_key (l : List PyDoc) (sourceType : PS) (seen : List PS)
    (acc : List PyDoc) (hinv : ∀ u, u ∈ seen ↔ u ∈ acc.map keyOf) (t : PS) :
    (split_and_dedup_docs l (seen, acc) sourceType).2.filter (fun c => keyOf c = t)
      = acc.filter (fun c => keyOf c = t) ++
          (if t ∈ seen then []
           else ((taggedPasses l sourceType).filter (fun c => keyOf c = t)).take 1) := by
  induction l generalizing seen acc with
  | nil =>
    by_cases ht : t ∈ seen
    · simp [split_and_dedup_docs, ht]
    · simp [split_and_dedup_docs, ht, taggedPasses]
  | cons c l ih =>
    have hfold : split_and_dedup_docs (c :: l) (seen, acc) sourceType
        = split_and_dedup_docs l (dedupStep sourceType (seen, acc) c) sourceType := rfl
    rw [hfold, dedupStep_cases, taggedPasses_cons]
    by_cases hc : chunkOK c
    · rw [if_pos hc, if_pos hc]
      by_cases hk : keyOf c ∈ seen
      · rw [if_pos hk, ih seen acc hinv]
        by_cases ht : t ∈ seen
        · rw [if_pos ht, if_pos ht]
        · have hne : ¬ (decide (keyOf (tagChunk sourceType c) = t) = true) := by
            simp only [keyOf_tagChunk, decide_eq_true_eq]
            exact fun he => ht (he ▸ hk)
          rw [if_neg ht, if_neg ht, List.filter_cons, if_neg hne]
      · rw [if_neg hk]
        have hinv2 : ∀ u, u ∈ keyOf c :: seen ↔
            u ∈ (acc ++ [tagChunk sourceType c]).map keyOf := by
          intro u
          simp only [List.mem_cons, List.map_append, List.mem_append, List.map_cons,
            List.map_nil, keyOf_tagChunk, List.mem_singleton, hinv u]
          tauto
        rw [ih (keyOf c :: seen) (acc ++ [tagChunk sourceType c]) hinv2, List.filter_append]
        by_cases ht : t = keyOf c
        · subst ht
          have hacc : acc.filter (fun x => keyOf x = keyOf c) = [] :=
            filter_key_eq_nil acc (keyOf c) (fun hm => hk ((hinv (keyOf c)).2 hm))
          rw [if_pos (List.mem_cons_self _ _), if_neg (fun hm => hk hm)]
          simp only [hacc, List.nil_append, List.filter_cons, keyOf_tagChunk]
          simp
        · have hne : ¬ (decide (keyOf (tagChunk sourceType c) = t) = true) := by
            simp only [keyOf_tagChunk, decide_eq_true_eq]
            exact fun he => ht he.symm
          have h2 : (List.filter (fun x => keyOf x = t) [tagChunk sourceType c]) = [] := by
            simp only [List.filter_cons, List.filter_nil]
            rw [if_neg hne]
          have h3 : List.filter (fun x => keyOf x = t)
                (tagChunk sourceType c :: taggedPasses l sourceType)
              = List.filter (fun x => keyOf x = t) (taggedPasses l sourceType) := by
            rw [List.filter_cons, if_neg hne]
          have h1seen : (t ∈ keyOf c :: seen) ↔ t ∈ seen := by
            simp only [List.mem_cons]
            constructor
            · rintro (he | hs)
              · exact absurd he ht
              · exact hs
            · exact Or.inr
          rw [h2, h3, List.append_nil]
          by_cases ht2 : t ∈ seen
          · rw [if_pos ht2, if_pos (h1seen.2 ht2)]
          · rw [if_neg ht2, if_neg (fun hm => ht2 (h1seen.1 hm))]
    · rw [if_neg hc, if_neg hc, ih seen acc hinv]

/-- C5: deduplication is first-occurrence-wins keyed by the hash of trimmed
content.  Over two successive ingestion batches (for instance web then pdf),
the corpus chunks whose trimmed content hashes to `t` are exactly the first
element of the combined filtered, provenance-tagged chunk stream with that
key: duplicates never add a second copy, the survivor is the first
submission and carries the first submission's source type, and dropping is
silent (the fold is total). -/
theorem dedup_first_occurrence_wins (l1 l2 : List PyDoc) (st1 st2 : PS) (t : PS) :
    (split_and_dedup_docs l2 (split_and_dedup_docs l1 ([], []) st1) st2).2.filter
        (fun c => keyOf c = t)
      = ((taggedPasses l1 st1 ++ taggedPasses l2 st2).filter
          (fun c => keyOf c = t)).take 1 := by
  have hinv0 : ∀ u : PS, u ∈ ([] : List PS) ↔ u ∈ ([] : List PyDoc).map keyOf := by simp
  have h1 := split_and_dedup_filter_key l1 st1 [] [] hinv0 t
  have hinv1 := split_and_dedup_seen_inv l1 (([], []) : DedupState) st1 hinv0
  rcases hmid : split_and_dedup_docs l1 ([], []) st1 with ⟨seen1, acc1⟩
  rw [hmid] at h1 hinv1
  simp only [List.filter_nil, List.nil_append, List.not_mem_nil, if_false] at h1
  rw [split_and_dedup_filter_key l2 st2 seen1 acc1 hinv1 t, List.filter_append]
  by_cases hTP1 : (taggedPasses l1 st1).filter (fun c => keyOf c = t) = []
  · have hseen : t ∉ seen1 := by
      intro hs
      have hmem : t ∈ acc1.map keyOf := (hinv1 t).1 hs
      have hne := (mem_map_keyOf_iff_filter_ne_nil acc1 t).1 hmem
      rw [h1, hTP1] at hne
      simp at hne
    rw [if_neg hseen, h1, hTP1]
    simp
  · rcases hx : (taggedPasses l1 st1).filter (fun c => keyOf c = t) with _ | ⟨x, xs⟩
    · exact absurd hx hTP1
    · have hseen : t ∈ seen1 := by
        apply (hinv1 t).2
        apply (mem_map_keyOf_iff_filter_ne_nil acc1 t).2
        rw [h1, hx]
        simp
      rw [if_pos hseen, h1, hx]
      simp

theorem blankP_false_of_space_false (c : Nat) (h : isSpaceCp c = false) :
    blankP c = false := by
  cases hb : blankP c
  · rfl
  · exfalso
    have h2 : c = 32 ∨ c = 9 := by
      simpa [blankP] using hb
    rcases h2 with rfl | rfl
    · exact absurd h (by decide)
    · exact absurd h (by decide)

theorem head_append_ne {α : Type} (a u : List α) (h : a ≠ []) :
    (a ++ u).head? = a.head? := by
  cases a with
  | nil => exact absurd rfl h
  | cons x xs => rfl

/-- Evaluation shape of `_clean_content` once step 2 succeeds. -/
theorem clean_content_eval (x t2 : PS)
    (h : (utf8Encode (collapseLitN false x)).bind uEscDecode = some t2) :
    clean_content x = some (List.intercalate [32]
      (((pySplitlines ((collapseRuns blankP 32 false
          (collapseRuns nlP 10 false t2)).map nbspFix)).map pyStrip).filter (· ≠ []))) := by
  cases h1 : utf8Encode (collapseLitN false x) with
  | none => rw [h1] at h; simp at h
  | some bs =>
    rw [h1] at h
    have h2 : uEscDecode bs = some t2 := by simpa using h
    simp only [clean_content, h1, h2]

/-- Facts about each kept stripped line of a chain-normalized string. -/
theorem lines_fact (t4 : PS)
    (hch : t4.Chain' (fun a b => ¬(blankP a = true ∧ blankP b = true))) :
    ∀ l ∈ (((pySplitlines t4).map pyStrip).filter (· ≠ [])),
      l ≠ [] ∧ (∀ c ∈ l, c ∈ t4 ∧ isLineBreakCp c = false) ∧
      l.Chain' (fun a b => ¬(blankP a = true ∧ blankP b = true)) ∧
      (∀ c, l.head? = some c → isSpaceCp c = false) ∧
      (∀ c, l.reverse.head? = some c → isSpaceCp c = false) := by
  intro l hl
  rw [List.mem_filter] at hl
  obtain ⟨hl1, hl2⟩ := hl
  rw [List.mem_map] at hl1
  obtain ⟨l0, hl0, rfl⟩ := hl1
  have hne : pyStrip l0 ≠ [] := by simpa using hl2
  have hmem : ∀ c ∈ l0, c ∈ t4 ∧ isLineBreakCp c = false := by
    intro c hc
    have h2 := splitlinesAux_mem [] t4 (by simp) l0 hl0 c hc
    rcases h2 with ⟨h3 | h3, h4⟩
    · simp at h3
    · exact ⟨h3, h4⟩
  have hchl : l0.Chain' (fun a b => ¬(blankP a = true ∧ blankP b = true)) := by
    refine splitlinesAux_chain [] t4 ?_ l0 hl0
    simpa using hch
  refine ⟨hne, ?_, pyStrip_chain l0 hchl, pyStrip_head_not_space l0,
    pyStrip_last_not_space l0⟩
  intro c hc
  exact hmem c ((pyStrip_sublist l0).subset hc)

/-- On backslash-free ASCII input `_clean_content` succeeds and its output
is in the normal form `cleanNF`. -/
theorem clean_output_NF (x : PS) (h : asciiNoBackslash x) :
    ∃ y, clean_content x = some y ∧ cleanNF y := by
  have ht1 : ∀ c ∈ collapseLitN false x, c < 128 ∧ c ≠ 92 := by
    intro c hc
    rcases mem_collapseLitN false x c hc with h0 | h0
    · exact h c h0
    · subst h0; exact ⟨by omega, by omega⟩
  have henc : utf8Encode (collapseLitN false x) = some (collapseLitN false x) :=
    utf8Encode_ascii _ (fun c hc => (ht1 c hc).1)
  have hdec : uEscDecode (collapseLitN false x) = some (collapseLitN false x) :=
    uEscDecode_no92 _ (fun c hc => (ht1 c hc).2)
  have hbind : (utf8Encode (collapseLitN false x)).bind uEscDecode
      = some (collapseLitN false x) := by
    rw [henc]
    simpa using hdec
  have heval := clean_content_eval x (collapseLitN false x) hbind
  have ht3 : ∀ c ∈ collapseRuns nlP 10 false (collapseLitN false x),
      c < 128 ∧ c ≠ 92 := by
    intro c hc
    rcases mem_collapseRuns nlP 10 (collapseLitN false x) false c hc with ⟨h1, _⟩ | h1
    · exact ht1 c h1
    · subst h1; exact ⟨by omega, by omega⟩
  set t3 := collapseRuns nlP 10 false (collapseLitN false x) with hT3
  have ht4 : ∀ c ∈ collapseRuns blankP 32 false t3, c < 128 ∧ c ≠ 92 ∧ c ≠ 9 := by
    intro c hc
    rcases mem_collapseRuns blankP 32 t3 false c hc with ⟨h1, h2⟩ | h1
    · refine ⟨(ht3 c h1).1, (ht3 c h1).2, ?_⟩
      intro h9
      rw [h9] at h2
      simp [blankP] at h2
    · subst h1; exact ⟨by omega, by omega, by omega⟩
  set t4 := collapseRuns blankP 32 false t3 with hT4
  have hch4 : t4.Chain' (fun a b => ¬(blankP a = true ∧ blankP b = true)) :=
    collapseRuns_chain blankP 32 t3 false
  have hmap : t4.map nbspFix = t4 :=
    map_nbspFix_id t4 (fun c hc => by have := (ht4 c hc).1; omega)
  rw [hmap] at heval
  have hlf := lines_fact t4 hch4
  refine ⟨_, heval, ?_, ?_, ?_⟩
  · -- character classes
    intro c hc
    rcases mem_intercalate32 c _ hc with rfl | ⟨l, hl, hcl⟩
    · exact ⟨by omega, by omega, by omega, by decide⟩
    · obtain ⟨-, hmem, -, -, -⟩ := hlf l hl
      obtain ⟨h4, hLB⟩ := hmem c hcl
      exact ⟨(ht4 c h4).1, (ht4 c h4).2.1, (ht4 c h4).2.2, hLB⟩
  · -- no adjacent blanks
    refine chain_intercalate32 _ ?_
    intro l hl
    obtain ⟨hne, hmem, hchn, hhd, hlast⟩ := hlf l hl
    exact ⟨hne, hchn,
      fun c hc => blankP_false_of_space_false c (hhd c hc),
      fun c hc => blankP_false_of_space_false c (hlast c hc)⟩
  · -- stripped
    cases hls : ((pySplitlines t4).map pyStrip).filter (· ≠ []) with
    | nil => rfl
    | cons a ls =>
      refine pyStrip_eq_self _ ?_ ?_
      · intro c hc
        have ha := hlf a (by rw [hls]; exact List.mem_cons_self _ _)
        obtain ⟨u, hu⟩ := intercalate32_head_ex a ls
        rw [hu, head_append_ne a u ha.1] at hc
        exact ha.2.2.2.1 c hc
      · refine last_not_space_intercalate32 _ ?_
        intro l hl
        have hfact := hlf l (by rw [hls]; exact hl)
        exact ⟨hfact.1, hfact.2.2.2.2⟩

/-- On normal-form strings `_clean_content` is the identity. -/
theorem clean_content_NF_fix (y : PS) (h : cleanNF y) : clean_content y = some y := by
  obtain ⟨hchars, hchain, hstrip⟩ := h
  have hno92 : ∀ c ∈ y, c ≠ 92 := fun c hc => (hchars c hc).2.1
  have hascii : ∀ c ∈ y, c < 128 := fun c hc => (hchars c hc).1
  have hbind : (utf8Encode (collapseLitN false y)).bind uEscDecode = some y := by
    rw [collapseLitN_id y hno92, utf8Encode_ascii y hascii]
    simpa using uEscDecode_no92 y hno92
  rw [clean_content_eval y y hbind]
  have h3 : collapseRuns nlP 10 false y = y := by
    refine collapseRuns_id_notP nlP 10 y ?_
    intro c hc
    cases hnl : nlP c
    · rfl
    · exfalso
      have h10 : c = 10 := by simpa [nlP] using hnl
      subst h10
      exact absurd (hchars 10 hc).2.2.2 (by decide)
  have h4 : collapseRuns blankP 32 false y = y := by
    refine collapseRuns_id_chain blankP 32 y ?_ hchain
    intro c hc hbc
    have h2 : c = 32 ∨ c = 9 := by simpa [blankP] using hbc
    rcases h2 with rfl | rfl
    · rfl
    · exact absurd (hchars 9 hc).2.2.1 (by simp)
  have h5 : y.map nbspFix = y :=
    map_nbspFix_id y (fun c hc => by have := hascii c hc; omega)
  rw [h3, h4, h5, pySplitlines_noLB y (fun c hc => (hchars c hc).2.2.2)]
  by_cases hy : y = []
  · rw [if_pos hy, hy]
    rfl
  · rw [if_neg hy]
    simp only [List.map_cons, List.map_nil, hstrip]
    rw [List.filter_cons, if_pos (by simpa using hy)]
    simp only [List.filter_nil]
    rw [intercalate32_single]

/-- C1 (amended): the normalizer is idempotent on backslash-free ASCII
input.  One pass then yields a normal form — no backslashes (so the escape
decode of a second pass is the identity), no line boundaries or tabs, no
adjacent blanks and no surrounding whitespace — on which every step of a
second pass is the identity. -/
theorem clean_content_idempotent_on_ascii (x : PS) (h : asciiNoBackslash x) :
    (clean_content x).bind clean_content = clean_content x := by
  obtain ⟨y, hy, hNF⟩ := clean_output_NF x h
  rw [hy]
  show clean_content y = some y
  exact clean_content_NF_fix y hNF

/-- Witness for C1 (amended): a concrete ASCII input with newlines, runs of
blanks and surrounding whitespace is cleaned idempotently. -/
theorem clean_content_idempotent_on_ascii_witness :
    asciiNoBackslash (pyStr "  Line one\n\n  line   two\t!") ∧
      (clean_content (pyStr "  Line one\n\n  line   two\t!")).bind clean_content
        = clean_content (pyStr "  Line one\n\n  line   two\t!") :=
  ⟨by decide, clean_content_idempotent_on_ascii _ (by decide)⟩

theorem printable_not_space (c : Nat) (h1 : 33 ≤ c) (h2 : c ≤ 126) :
    isSpaceCp c = false := by
  cases hs : isSpaceCp c
  · rfl
  · exfalso
    simp only [isSpaceCp, Bool.or_eq_true, Bool.and_eq_true, decide_eq_true_eq] at hs
    omega

theorem printable_not_LB (c : Nat) (h1 : 33 ≤ c) (h2 : c ≤ 126) :
    isLineBreakCp c = false := by
  cases hs : isLineBreakCp c
  · rfl
  · exfalso
    simp only [isLineBreakCp, Bool.or_eq_true, Bool.and_eq_true, decide_eq_true_eq] at hs
    omega

theorem printable_not_nl (c : Nat) (h1 : 33 ≤ c) (h2 : c ≤ 126) : nlP c = false := by
  cases hs : nlP c
  · rfl
  · exfalso
    simp only [nlP, decide_eq_true_eq] at hs
    omega

/-- The normalizer raises exactly when the encode/decode round trip fails. -/
theorem clean_content_fail_iff (x : PS) :
    clean_content x = Option.none ↔
      (utf8Encode (collapseLitN false x)).bind uEscDecode = Option.none := by
  cases h1 : utf8Encode (collapseLitN false x) with
  | none => simp [clean_content, h1]
  | some bs =>
    cases h2 : uEscDecode bs with
    | none => simp [clean_content, h1, h2]
    | some t2 => simp [clean_content, h1, h2]

/-- Cleaning keeps a printable-ASCII backslash-free prefix intact. -/
theorem clean_prefix_of_printable (s u y : PS) (hne : s ≠ [])
    (hs : ∀ c ∈ s, 33 ≤ c ∧ c ≤ 126 ∧ c ≠ 92)
    (hy : clean_content (s ++ u) = some y) : s <+: y := by
  have hno92 : ∀ c ∈ s, c ≠ 92 := fun c hc => (hs c hc).2.2
  have hascii : ∀ c ∈ s, c < 128 := fun c hc => by have := (hs c hc).2.1; omega
  have hspace : ∀ c ∈ s, isSpaceCp c = false :=
    fun c hc => printable_not_space c (hs c hc).1 (hs c hc).2.1
  have hLBs : ∀ c ∈ s, isLineBreakCp c = false :=
    fun c hc => printable_not_LB c (hs c hc).1 (hs c hc).2.1
  have hbind : ∃ t2, (utf8Encode (collapseLitN false (s ++ u))).bind uEscDecode = some t2 := by
    cases hx : (utf8Encode (collapseLitN false (s ++ u))).bind uEscDecode with
    | none =>
      exfalso
      rw [(clean_content_fail_iff (s ++ u)).2 hx] at hy
      cases hy
    | some t2 => exact ⟨t2, rfl⟩
  obtain ⟨t2, ht2⟩ := hbind
  have heval := clean_content_eval (s ++ u) t2 ht2
  rw [heval] at hy
  have hy2 : y = List.intercalate [32]
      (((pySplitlines ((collapseRuns blankP 32 false
          (collapseRuns nlP 10 false t2)).map nbspFix)).map pyStrip).filter (· ≠ [])) := by
    cases hy
    rfl
  rw [collapseLitN_append s u hno92, utf8Encode_append_ascii s _ hascii] at ht2
  obtain ⟨t2u, ht2u⟩ : ∃ t2u, t2 = s ++ t2u := by
    cases hE : utf8Encode (collapseLitN false u) with
    | none =>
      rw [hE] at ht2
      simp at ht2
    | some bs =>
      rw [hE] at ht2
      simp only [Option.map_some, Option.some_bind] at ht2
      rw [uEscDecode_append_no92 s bs hno92] at ht2
      cases hD : uEscDecode bs with
      | none =>
        rw [hD] at ht2
        simp at ht2
      | some t2u =>
        rw [hD] at ht2
        simp only [Option.map_some, Option.some.injEq] at ht2
        exact ⟨t2u, ht2.symm⟩
  rw [ht2u] at hy2
  have hnl : ∀ c ∈ s, nlP c = false :=
    fun c hc => printable_not_nl c (hs c hc).1 (hs c hc).2.1
  have hbl : ∀ c ∈ s, blankP c = false :=
    fun c hc => blankP_false_of_space_false c (hspace c hc)
  rw [collapseRuns_append_notP nlP 10 s t2u hnl,
      collapseRuns_append_notP blankP 32 s _ hbl,
      List.map_append, map_nbspFix_id s (fun c hc => by have := (hs c hc).2.1; omega)] at hy2
  simp only [pySplitlines] at hy2
  rw [splitlinesAux_append_noLB s hLBs []] at hy2
  obtain ⟨w2, ls, hw2⟩ := splitlinesAux_head (s.reverse ++ []) _ (by simp [hne])
  rw [hw2] at hy2
  simp only [List.append_nil, List.reverse_reverse] at hy2
  rw [List.map_cons, pyStrip_append_left s w2 hne hspace] at hy2
  have hkeep : (s ++ (w2.reverse.dropWhile isSpaceCp).reverse) ≠ [] := by
    intro hcon
    exact hne (List.append_eq_nil.1 hcon).1
  rw [List.filter_cons, if_pos (by simp [hne])] at hy2
  obtain ⟨u2, hu2⟩ := intercalate32_head_ex
    (s ++ (w2.reverse.dropWhile isSpaceCp).reverse)
    (((ls.map pyStrip)).filter (· ≠ []))
  rw [hu2] at hy2
  exact ⟨(w2.reverse.dropWhile isSpaceCp).reverse ++ u2, by rw [hy2]; simp⟩

theorem renderSection_shape (sec : PS) (v : PyVal) (text : PS)
    (h : renderSection sec v = some text) : ∃ u, text = (sec ++ [58]) ++ u := by
  cases v with
  | str s2 =>
    simp only [renderSection, Option.some.injEq] at h
    refine ⟨32 :: s2, ?_⟩
    rw [← h, show pyStr ": " = [58, 32] from rfl]
    simp
  | list items =>
    simp only [renderSection, Option.some.injEq] at h
    refine ⟨10 :: List.intercalate (pyStr "\n\n") (items.map renderItem), ?_⟩
    rw [← h, show pyStr ":\n" = [58, 10] from rfl]
    simp
  | dict es =>
    simp only [renderSection, Option.some.injEq] at h
    refine ⟨10 :: List.intercalate (pyStr "\n") (es.map renderKV), ?_⟩
    rw [← h, show pyStr ":\n" = [58, 10] from rfl]
    simp
  | int n => simp [renderSection] at h
  | bool b => simp [renderSection] at h
  | none => simp [renderSection] at h

/-- C10: flattening an ExtractedRecord into per-section documents.  A
section whose value is not a string, list or dict renders to nothing and is
silently dropped (ints, bools and None in particular).  Every produced
document carries metadata binding the key section to the section name, and
for printable-ASCII backslash-free section names its cleaned page content
starts with the section name followed by a colon. -/
theorem convert_screener_sections :
    (∀ (sec : PS) (v : PyVal) (rest : List (PS × PyVal)),
        renderSection sec v = Option.none →
        convert_screener_json_to_documents ((sec, v) :: rest)
          = convert_screener_json_to_documents rest) ∧
    (∀ (sec : PS) (n : Int), renderSection sec (.int n) = Option.none) ∧
    (∀ (sec : PS) (b : Bool), renderSection sec (.bool b) = Option.none) ∧
    (∀ sec : PS, renderSection sec .none = Option.none) ∧
    (∀ (jsonData : List (PS × PyVal)) (docs : List PyDoc),
        convert_screener_json_to_documents jsonData = some docs →
        ∀ d ∈ docs, ∃ p ∈ jsonData,
          d.metadata = [(pyStr "section", p.1)] ∧
          (sectionNameOK p.1 → (p.1 ++ [58]) <+: d.page_content)) := by
  refine ⟨?_, ?_, ?_, ?_, ?_⟩
  · intro sec v rest h
    simp [convert_screener_json_to_documents, h]
  · intro sec n; rfl
  · intro sec b; rfl
  · intro sec; rfl
  · intro jsonData
    induction jsonData with
    | nil =>
      intro docs h d hd
      cases h
      simp at hd
    | cons p rest ih =>
      obtain ⟨sec, v⟩ := p
      intro docs h d hd
      cases hr : renderSection sec v with
      | none =>
        simp only [convert_screener_json_to_documents, hr] at h
        obtain ⟨q, hq, hmeta, hpre⟩ := ih docs h d hd
        exact ⟨q, List.mem_cons_of_mem _ hq, hmeta, hpre⟩
      | some text =>
        cases hcl : clean_content text with
        | none => simp [convert_screener_json_to_documents, hr, hcl] at h
        | some cleaned =>
          cases hrest : convert_screener_json_to_documents rest with
          | none => simp [convert_screener_json_to_documents, hr, hcl, hrest] at h
          | some ds =>
            simp only [convert_screener_json_to_documents, hr, hcl, hrest,
              Option.map_some, Option.some.injEq] at h
            subst h
            rcases List.mem_cons.1 hd with rfl | hd2
            · refine ⟨(sec, v), List.mem_cons_self _ _, rfl, ?_⟩
              intro hsec
              obtain ⟨u, hu⟩ := renderSection_shape sec v text hr
              rw [hu] at hcl
              refine clean_prefix_of_printable (sec ++ [58]) u cleaned
                (by simp) ?_ hcl
              intro c hc
              rcases List.mem_append.1 hc with hc2 | hc2
              · exact hsec c hc2
              · rw [List.mem_singleton] at hc2
                subst hc2
                refine ⟨by omega, by omega, by omega⟩
            · obtain ⟨q, hq, hmeta, hpre⟩ := ih ds hrest d hd2
              exact ⟨q, List.mem_cons_of_mem _ hq, hmeta, hpre⟩

/-- C10 (counterexample): a string-valued section whose value is empty
yields a document whose content is the section name followed by a bare
colon, with no following space — so content does not begin with the section
name followed by colon-space as claimed. -/
theorem convert_empty_value_no_colon_space :
    convert_screener_json_to_documents [(pyStr "s", .str [])]
      = some [⟨pyStr "s:", [(pyStr "section", pyStr "s")]⟩] ∧
      ¬ (pyStr "s: ") <+: (pyStr "s:") := by
  refine ⟨by decide, ?_⟩
  intro ⟨t, ht⟩
  simp [pyStr] at ht

/-- Witness for C10: a two-section record with a string section and an int
section produces exactly one document; the int section is dropped, the
document carries the section metadata and its content starts with the
section name and a colon. -/
theorem convert_screener_sections_witness :
    convert_screener_json_to_documents
        [(pyStr "pros", .str (pyStr "Good growth")), (pyStr "x", .int 5)]
      = some [⟨pyStr "pros: Good growth", [(pyStr "section", pyStr "pros")]⟩] ∧
      ∃ p ∈ [(pyStr "pros", PyVal.str (pyStr "Good growth")), (pyStr "x", PyVal.int 5)],
        (⟨pyStr "pros: Good growth", [(pyStr "section", pyStr "pros")]⟩ : PyDoc).metadata
            = [(pyStr "section", p.1)] ∧
        (sectionNameOK p.1 →
          (p.1 ++ [58]) <+: (⟨pyStr "pros: Good growth",
            [(pyStr "section", pyStr "pros")]⟩ : PyDoc).page_content) :=
  ⟨by decide,
   convert_screener_sections.2.2.2.2
     [(pyStr "pros", .str (pyStr "Good growth")), (pyStr "x", .int 5)]
     [⟨pyStr "pros: Good growth", [(pyStr "section", pyStr "pros")]⟩]
     (by decide) _ (List.mem_singleton.2 rfl)⟩

/-- C1 (counterexample): the text normalizer is not idempotent.  On the
four-character input `a\\tb` one pass decodes the double backslash to a
single one, leaving the literal escape `\t`, and a second pass decodes that
escape to a tab which then collapses to a space: `clean(clean(x))` is
`a b` while `clean(x)` is `a\tb`. -/
theorem clean_content_not_idempotent :
    (clean_content (pyStr "a\\\\tb")).bind clean_content ≠
      clean_content (pyStr "a\\\\tb") := by decide

/-- C2 (counterexample): `_clean_content` raises for the one-character input
consisting of a lone backslash: step 2's `decode('unicode_escape')` fails
with `UnicodeDecodeError` and the source has no handler, so the claim that
the normalizer never raises and falls back to the pre-decode text is false. -/
theorem clean_content_raises_on_lone_backslash :
    clean_content (pyStr "\\") = Option.none := by decide

/-- C2 (amended): `_clean_content` returns normally exactly when step 2's
encode/decode round trip succeeds; when the escape decoding fails the
exception propagates — there is no fallback to the pre-decode text. -/
theorem clean_content_none_iff (x : PS) :
    clean_content x = Option.none ↔
      (utf8Encode (collapseLitN false x)).bind uEscDecode = Option.none :=
  clean_content_fail_iff x

/-- C4: chunk-quality invariant of the ingestion run — every chunk in the
accumulated corpus has stripped content of length at least 20 containing at
least one alphanumeric character; sub-threshold chunks (such as
`!!! --- !!!`) are never appended by `_split_and_dedup_docs`. -/
theorem corpus_chunk_quality_invariant (a : IngestArgs) (chunks : List PyDoc)
    (h : corpusOf a = .ok chunks) : ∀ c ∈ chunks, chunkOK c := by
  unfold corpusOf at h
  cases hw : webPhase a with
  | error e => rw [hw, except_bind_error] at h; cases h
  | ok st1 =>
    rw [hw, except_bind_ok] at h
    cases hp : pdfPhase a st1 with
    | error e => rw [hp, except_bind_error] at h; cases h
    | ok st2 =>
      rw [hp, except_bind_ok] at h
      cases he : excelPhase a st2 with
      | error e => rw [he, except_bind_error] at h; cases h
      | ok st3 =>
        rw [he, except_bind_ok, except_pure] at h
        cases h
        rw [screenerPhase_eq_fold]
        exact screenerFold_chunkOK a _ st3
          (excelPhase_chunkOK a st2 st3
            (pdfPhase_chunkOK a st1 st2 (webPhase_chunkOK a st1 hw) hp) he)

/-- Witness for C4: a run over one web source whose loader yields the
sub-threshold chunk `!!! --- !!!` and one good chunk accumulates only the
good chunk, and every corpus chunk passes the quality predicate. -/
theorem corpus_chunk_quality_invariant_witness :
    corpusOf (webOnlyArgs [⟨pyStr "!!! --- !!!", []⟩,
                           ⟨pyStr "The quick brown fox jumps over the dog", []⟩]) =
        .ok [⟨pyStr "The quick brown fox jumps over the dog",
              [(pyStr "source_type", pyStr "web")]⟩] ∧
      ∀ c ∈ [(⟨pyStr "The quick brown fox jumps over the dog",
              [(pyStr "source_type", pyStr "web")]⟩ : PyDoc)], chunkOK c :=
  ⟨by decide,
   corpus_chunk_quality_invariant
     (webOnlyArgs [⟨pyStr "!!! --- !!!", []⟩,
                   ⟨pyStr "The quick brown fox jumps over the dog", []⟩])
     [⟨pyStr "The quick brown fox jumps over the dog",
       [(pyStr "source_type", pyStr "web")]⟩] (by decide)⟩

/-- C7: when the corpus accumulated over all sources is empty after
`filter_complex_metadata`, `generate_vectorstore` reports the no-data
result and never invokes the vector-store build. -/
theorem empty_corpus_no_build (a : IngestArgs) (chunks : List PyDoc)
    (h1 : corpusOf a = .ok chunks) (h2 : a.filterComplexMetadata chunks = []) :
    generate_vectorstore a = .noData ∧ ∀ cs, generate_vectorstore a ≠ .built cs := by
  unfold generate_vectorstore
  rw [h1]
  refine ⟨?_, ?_⟩ <;> simp [h2]

/-- Witness for C7: a run with no sources at all ends in the no-data result. -/
theorem empty_corpus_no_build_witness :
    generate_vectorstore ⟨.ok [], id, [], id, [], id, [], id, id⟩ = .noData ∧
      ∀ cs, generate_vectorstore ⟨.ok [], id, [], id, [], id, [], id, id⟩ ≠ .built cs :=
  empty_corpus_no_build _ [] rfl rfl

/-- C8 (counterexample): a failure loading a single PDF source is not
caught — the run aborts with the error even though a web source had already
produced a good chunk, so the claim that any single failing source is
skipped while the run continues is false. -/
theorem pdf_failure_aborts_run :
    generate_vectorstore ⟨.ok [⟨pyStr "The quick brown fox jumps over the dog", []⟩],
      id, [.error .loadError], id, [], id, [], id, id⟩ = .err .loadError := by decide

/-- C8 (amended): only the screener loop has a handler — a failing screener
URL is skipped and the run's outcome is the same as if that URL were absent;
failures while loading web, PDF or excel sources propagate and abort the
run. -/
theorem screener_source_failure_skipped (a : IngestArgs) (e : PyErr)
    (l1 l2 : List (Except PyErr (List (PS × PyVal))))
    (h : a.screenerExtracts = l1 ++ .error e :: l2) :
    generate_vectorstore a =
      generate_vectorstore { a with screenerExtracts := l1 ++ l2 } := by
  have hphase : ∀ st0 : DedupState,
      screenerPhase a st0 = screenerPhase { a with screenerExtracts := l1 ++ l2 } st0 := by
    intro st0
    rw [screenerPhase_eq_fold, screenerPhase_eq_fold, h]
    exact screenerFold_skip_error a st0 e l1 l2
  have hcorp : corpusOf a = corpusOf { a with screenerExtracts := l1 ++ l2 } := by
    unfold corpusOf
    have hw : webPhase { a with screenerExtracts := l1 ++ l2 } = webPhase a := rfl
    have hp : pdfPhase { a with screenerExtracts := l1 ++ l2 } = pdfPhase a := rfl
    have he : excelPhase { a with screenerExtracts := l1 ++ l2 } = excelPhase a := rfl
    rw [hw, hp, he]
    cases webPhase a with
    | error e1 => rw [except_bind_error, except_bind_error]
    | ok st1 =>
      rw [except_bind_ok, except_bind_ok]
      cases pdfPhase a st1 with
      | error e1 => rw [except_bind_error, except_bind_error]
      | ok st2 =>
        rw [except_bind_ok, except_bind_ok]
        cases excelPhase a st2 with
        | error e1 => rw [except_bind_error, except_bind_error]
        | ok st3 =>
          rw [except_bind_ok, except_bind_ok, hphase st3]
  unfold generate_vectorstore
  rw [hcorp]

/-- Witness for C8 (amended): a run whose only screener URL fails has the
same outcome as the run with no screener URL. -/
theorem screener_source_failure_skipped_witness :
    generate_vectorstore ⟨.ok [], id, [], id, [], id, [.error .extractError], id, id⟩ =
      generate_vectorstore
        { (⟨.ok [], id, [], id, [], id, [.error .extractError], id, id⟩ : IngestArgs) with
          screenerExtracts := [] ++ [] } :=
  screener_source_failure_skipped _ .extractError [] [] rfl

/-! ### HTML extraction lemmas -/

theorem intercalate_single {α : Type} (sep x : List α) :
    List.intercalate sep [x] = x := by
  simp [List.intercalate]

theorem nodeText_leaf (tg : String) (cls : List String) (ats : List (String × PS))
    (s : PS) : nodeText (.elem tg cls ats [.text s]) = s := by
  simp [nodeText, get_text, nodeStrings, nodeStringsL, intercalate_single]

theorem annualEntries_ok : ∀ lis : List Node, lis.all annualOKli = true →
    ∃ vs, annualEntries lis = .ok vs := by
  intro lis
  induction lis with
  | nil => intro _; exact ⟨[], rfl⟩
  | cons li lis ih =>
    intro h
    rw [List.all_cons, Bool.and_eq_true] at h
    obtain ⟨vs, hvs⟩ := ih h.2
    have hli := h.1
    unfold annualOKli at hli
    cases hf : findFirst ["a"] Option.none li with
    | none =>
      refine ⟨vs, ?_⟩
      rw [annualEntries.eq_def]
      simp [hf, hvs]
    | some a =>
      simp only [hf] at hli
      cases ht : annualTitle a with
      | error e => rw [ht] at hli; simp [exceptOk] at hli
      | ok ttl =>
        exact ⟨_, by rw [annualEntries.eq_def]; simp [hf, ht, hvs]; rfl⟩

theorem extract_documents_fin_ok (soup : Node) (data : FinData)
    (har : annualsOK soup = true) :
    ∃ d, extract_documents_links_fin soup data = .ok d := by
  cases h : arSection soup with
  | none =>
    exact ⟨_, by simp only [extract_documents_links_fin, h, Except.map]; rfl⟩
  | some arSec =>
    have hall : (find_all ["li"] Option.none arSec).all annualOKli = true := by
      unfold annualsOK at har; rw [h] at har; exact har
    obtain ⟨vs, hvs⟩ := annualEntries_ok _ hall
    exact ⟨_, by simp only [extract_documents_links_fin, h, hvs, Except.map]; rfl⟩

/-- C3 (counterexample): the specification says every sub-extraction of
`extract_all` is best-effort in both variants, but the static variant's
`extract_company_name` dereferences `select_one("h1")` without a guard: on
a page with no `h1` element `extract_all` raises AttributeError. -/
theorem static_missing_h1_raises :
    extract_all_st soupNoH1 = .error .attributeError := rfl

/-- C3 (amended): every sub-extraction is best-effort except the static
variant's company name and the fintastic annual-report titles: on a page
that has an `h1` element and whose annual-report anchors start with a text
node, both `extract_all` variants return normally. -/
theorem extract_all_best_effort (soup : Node)
    (h1 : (select_one (sel1 (selTag "h1")) soup).isSome = true)
    (har : annualsOK soup = true) :
    (∃ d, extract_all_st soup = .ok d) ∧ (∃ d, extract_all_fin soup = .ok d) := by
  constructor
  · obtain ⟨t, ht⟩ := Option.isSome_iff_exists.mp h1
    exact ⟨_, by simp only [extract_all_st, extract_company_name_st, ht, Except.map]; rfl⟩
  · exact extract_documents_fin_ok soup _ har

/-- C3 witness: the amended theorem on the minimal page with an `h1`. -/
theorem extract_all_best_effort_witness :
    (select_one (sel1 (selTag "h1")) soupWithH1).isSome = true ∧
      annualsOK soupWithH1 = true ∧
      ((∃ d, extract_all_st soupWithH1 = .ok d) ∧
        (∃ d, extract_all_fin soupWithH1 = .ok d)) :=
  ⟨by decide, by decide, extract_all_best_effort soupWithH1 (by decide) (by decide)⟩

/-! ### Table extraction lemmas -/

theorem nodeText_h2Node (s : PS) : nodeText (h2Node s) = s := nodeText_leaf _ _ _ _

theorem preL_thCells (hs : List PS) :
    preNodesL (hs.map thNode) = hs.flatMap (fun h => [thNode h, Node.text h]) := by
  induction hs with
  | nil => rfl
  | cons h t ih => simp [preNodesL, preNodesN, thNode, ih]

theorem preL_tdCells (cs : List PS) :
    preNodesL (cs.map tdNode) = cs.flatMap (fun c => [tdNode c, Node.text c]) := by
  induction cs with
  | nil => rfl
  | cons c t ih => simp [preNodesL, preNodesN, tdNode, ih]

theorem preL_trRows (rows : List (List PS)) :
    preNodesL (rows.map trRow) =
      rows.flatMap (fun cs =>
        trRow cs :: cs.flatMap (fun c => [tdNode c, Node.text c])) := by
  induction rows with
  | nil => rfl
  | cons cs t ih => simp [preNodesL, preNodesN, trRow, preL_tdCells, ih]

theorem allDescs_dataTable (hs : List PS) (rows : List (List PS)) :
    allDescs (dataTable hs rows) =
      headerRow hs :: (hs.flatMap (fun h => [thNode h, Node.text h]) ++
        rows.flatMap (fun cs =>
          trRow cs :: cs.flatMap (fun c => [tdNode c, Node.text c]))) := by
  simp [allDescs, dataTable, preNodesN, preNodesL, headerRow, preL_thCells, preL_trRows]

theorem find_all_none (names : List String) (n : Node) :
    find_all names Option.none n = (allDescs n).filter (tagIs names) := by
  simp [find_all]

theorem filter_th_thCells (hs : List PS) :
    (hs.flatMap (fun h => [thNode h, Node.text h])).filter (tagIs ["th"]) =
      hs.map thNode := by
  induction hs with
  | nil => rfl
  | cons h t ih =>
    rw [List.flatMap_cons, List.filter_append, ih,
      show ([thNode h, Node.text h]).filter (tagIs ["th"]) = [thNode h] from rfl]
    simp

theorem filter_tr_thCells (hs : List PS) :
    (hs.flatMap (fun h => [thNode h, Node.text h])).filter (tagIs ["tr"]) = [] := by
  induction hs with
  | nil => rfl
  | cons h t ih =>
    rw [List.flatMap_cons, List.filter_append, ih,
      show ([thNode h, Node.text h]).filter (tagIs ["tr"]) = [] from rfl]
    rfl

theorem filter_td_tdCells (cs : List PS) :
    (cs.flatMap (fun c => [tdNode c, Node.text c])).filter (tagIs ["td"]) =
      cs.map tdNode := by
  induction cs with
  | nil => rfl
  | cons c t ih =>
    rw [List.flatMap_cons, List.filter_append, ih,
      show ([tdNode c, Node.text c]).filter (tagIs ["td"]) = [tdNode c] from rfl]
    simp

theorem filter_th_tdCells (cs : List PS) :
    (cs.flatMap (fun c => [tdNode c, Node.text c])).filter (tagIs ["th"]) = [] := by
  induction cs with
  | nil => rfl
  | cons c t ih =>
    rw [List.flatMap_cons, List.filter_append, ih,
      show ([tdNode c, Node.text c]).filter (tagIs ["th"]) = [] from rfl]
    rfl

theorem filter_tr_tdCells (cs : List PS) :
    (cs.flatMap (fun c => [tdNode c, Node.text c])).filter (tagIs ["tr"]) = [] := by
  induction cs with
  | nil => rfl
  | cons c t ih =>
    rw [List.flatMap_cons, List.filter_append, ih,
      show ([tdNode c, Node.text c]).filter (tagIs ["tr"]) = [] from rfl]
    rfl

theorem filter_tr_trRows (rows : List (List PS)) :
    (rows.flatMap (fun cs =>
        trRow cs :: cs.flatMap (fun c => [tdNode c, Node.text c]))).filter
      (tagIs ["tr"]) = rows.map trRow := by
  induction rows with
  | nil => rfl
  | cons cs t ih =>
    rw [List.flatMap_cons, List.filter_append, ih, List.filter_cons,
      show tagIs ["tr"] (trRow cs) = true from rfl]
    simp [filter_tr_tdCells]

theorem filter_th_trRows (rows : List (List PS)) :
    (rows.flatMap (fun cs =>
        trRow cs :: cs.flatMap (fun c => [tdNode c, Node.text c]))).filter
      (tagIs ["th"]) = [] := by
  induction rows with
  | nil => rfl
  | cons cs t ih =>
    rw [List.flatMap_cons, List.filter_append, ih, List.filter_cons,
      show tagIs ["th"] (trRow cs) = false from rfl]
    simp [filter_th_tdCells]

theorem find_all_th_dataTable (hs : List PS) (rows : List (List PS)) :
    find_all ["th"] Option.none (dataTable hs rows) = hs.map thNode := by
  rw [find_all_none, allDescs_dataTable, List.filter_cons,
    show tagIs ["th"] (headerRow hs) = false from rfl]
  simp [List.filter_append, filter_th_thCells, filter_th_trRows]

theorem find_all_tr_dataTable (hs : List PS) (rows : List (List PS)) :
    find_all ["tr"] Option.none (dataTable hs rows) =
      headerRow hs :: rows.map trRow := by
  rw [find_all_none, allDescs_dataTable, List.filter_cons,
    show tagIs ["tr"] (headerRow hs) = true from rfl]
  simp [List.filter_append, filter_tr_thCells, filter_tr_trRows]

theorem find_all_td_trRow (cs : List PS) :
    find_all ["td"] Option.none (trRow cs) = cs.map tdNode := by
  rw [find_all_none]
  show (preNodesL (cs.map tdNode)).filter (tagIs ["td"]) = cs.map tdNode
  rw [preL_tdCells, filter_td_tdCells]

theorem rowCells_trRow (cs : List PS) : rowCells (trRow cs) = cs.map pyStrip := by
  simp [rowCells, find_all_td_trRow, List.map_map, tdNode, nodeText_leaf]

theorem tableHeaders_dataTable (hs : List PS) (rows : List (List PS)) :
    (find_all ["th"] Option.none (dataTable hs rows)).map
      (fun th => pyStrip (nodeText th)) = hs.map pyStrip := by
  simp [find_all_th_dataTable, List.map_map, thNode, nodeText_leaf]

theorem tableRows_loop (headers : List PS) :
    ∀ (l : List Node) (acc : List PyVal),
      l.foldl (fun rows tr =>
        if rowCells tr ≠ [] then
          rows ++ [PyVal.dict (dictOfZip headers (rowCells tr))]
        else rows) acc
      = acc ++ (l.filter (fun tr => !(rowCells tr).isEmpty)).map
          (fun tr => PyVal.dict (dictOfZip headers (rowCells tr))) := by
  intro l
  induction l with
  | nil => intro acc; simp
  | cons x xs ih =>
    intro acc
    rw [List.foldl_cons, List.filter_cons]
    by_cases hx : rowCells x ≠ []
    · have hb : (!(rowCells x).isEmpty) = true := by
        cases h : rowCells x
        · exact absurd h hx
        · rfl
      rw [if_pos hx, ih, hb]
      simp
    · have h0 : rowCells x = [] := not_not.mp hx
      have hb : (!(rowCells x).isEmpty) = false := by rw [h0]; rfl
      rw [if_neg hx, ih, hb]
      simp

theorem mapStrip_ne_nil (cs : List PS) :
    (!(cs.map pyStrip).isEmpty) = !cs.isEmpty := by
  cases cs <;> rfl

theorem tableRows_dataTable (hs : List PS) (rows : List (List PS)) :
    tableRows (dataTable hs rows) =
      (rows.filter (fun cs => !cs.isEmpty)).map
        (fun cs => PyVal.dict (dictOfZip (hs.map pyStrip) (cs.map pyStrip))) := by
  simp only [tableRows]
  rw [tableHeaders_dataTable, find_all_tr_dataTable]
  rw [show (headerRow hs :: rows.map trRow).drop 1 = rows.map trRow from rfl]
  rw [tableRows_loop (hs.map pyStrip) (rows.map trRow) [], List.nil_append]
  rw [List.filter_map, List.map_map]
  simp only [Function.comp_def, rowCells_trRow, mapStrip_ne_nil]

theorem tablesStep_heading (hd : List String) (st : Option PS × FinData) (n : Node)
    (h : tagIs hd n = true) : tablesStep hd st n = (some (nodeText n), st.2) := by
  simp [tablesStep, h]

theorem tablesStep_skip (hd : List String) (st : Option PS × FinData) (n : Node)
    (h1 : tagIs hd n = false)
    (h2 : (tagIs ["table"] n && hasClass "data-table" n) = false) :
    tablesStep hd st n = st := by
  simp [tablesStep, h1, h2]

theorem tablesStep_table (hd : List String) (h : PS) (d : FinData) (n : Node)
    (h1 : tagIs hd n = false)
    (h2 : (tagIs ["table"] n && hasClass "data-table" n) = true) :
    tablesStep hd (some h, d) n =
      (some h, pyDictInsert d (pyStrip h) (.list (tableRows n))) := by
  simp [tablesStep, h1, h2]

theorem tablesFold_skipped (hd : List String) :
    ∀ (l : List Node) (st : Option PS × FinData),
      (∀ n ∈ l, tagIs hd n = false ∧
        (tagIs ["table"] n && hasClass "data-table" n) = false) →
      l.foldl (tablesStep hd) st = st := by
  intro l
  induction l with
  | nil => intro st _; rfl
  | cons x xs ih =>
    intro st h
    rw [List.foldl_cons,
      tablesStep_skip hd st x (h x (by simp)).1 (h x (by simp)).2]
    exact ih st (fun n hn => h n (by simp [hn]))

theorem dataTable_descs_skip (hd : List String)
    (htr : hd.contains "tr" = false) (hth : hd.contains "th" = false)
    (htd : hd.contains "td" = false)
    (hs : List PS) (rows : List (List PS)) (n : Node)
    (hn : n ∈ preNodesN (dataTable hs rows)) :
    tagIs hd n = false ∧
      (tagIs ["table"] n && hasClass "data-table" n) = false := by
  have h0 : preNodesN (dataTable hs rows) =
      headerRow hs :: (hs.flatMap (fun h => [thNode h, Node.text h]) ++
        rows.flatMap (fun cs =>
          trRow cs :: cs.flatMap (fun c => [tdNode c, Node.text c]))) := by
    have h1 := allDescs_dataTable hs rows
    simpa [allDescs] using h1
  rw [h0] at hn
  simp only [List.mem_cons, List.mem_append, List.mem_flatMap] at hn
  rcases hn with rfl | hn | hn
  · exact ⟨htr, rfl⟩
  · obtain ⟨h, _, hh⟩ := hn
    simp only [List.mem_cons, List.not_mem_nil, or_false] at hh
    rcases hh with rfl | rfl
    · exact ⟨hth, rfl⟩
    · exact ⟨rfl, rfl⟩
  · obtain ⟨cs, _, hh⟩ := hn
    simp only [List.mem_cons, List.mem_flatMap, List.not_mem_nil, or_false] at hh
    rcases hh with rfl | ⟨c, _, hc⟩
    · exact ⟨htr, rfl⟩
    · rcases hc with rfl | rfl
      · exact ⟨htd, rfl⟩
      · exact ⟨rfl, rfl⟩

theorem extract_tables_walk_tableDoc (hd : List String)
    (hh2 : hd.contains "h2" = true) (htab : hd.contains "table" = false)
    (htr : hd.contains "tr" = false) (hth : hd.contains "th" = false)
    (htd : hd.contains "td" = false)
    (far hN : PS) (hs : List PS) (rows : List (List PS)) :
    extract_tables_walk hd (tableDoc far hN hs rows) [] =
      [(pyStrip hN, PyVal.list ((rows.filter (fun cs => !cs.isEmpty)).map
        (fun cs => PyVal.dict (dictOfZip (hs.map pyStrip) (cs.map pyStrip)))))] := by
  unfold extract_tables_walk
  have hnodes : allDescs (tableDoc far hN hs rows) =
      [h2Node far, Node.text far, h2Node hN, Node.text hN] ++
        (dataTable hs rows :: preNodesN (dataTable hs rows)) := by
    simp [allDescs, tableDoc, preNodesN, preNodesL, h2Node]
  rw [hnodes, List.foldl_append]
  have e1 : List.foldl (tablesStep hd) (Option.none, ([] : FinData))
      [h2Node far, Node.text far, h2Node hN, Node.text hN] = (some hN, []) := by
    simp only [List.foldl_cons, List.foldl_nil]
    rw [tablesStep_heading hd (Option.none, ([] : FinData)) (h2Node far) hh2]
    rw [tablesStep_skip hd _ (Node.text far) rfl rfl]
    rw [tablesStep_heading hd _ (h2Node hN) hh2]
    rw [tablesStep_skip hd _ (Node.text hN) rfl rfl]
    simp [nodeText_h2Node]
  rw [e1, List.foldl_cons]
  rw [tablesStep_table hd hN [] (dataTable hs rows) htab rfl]
  rw [tablesFold_skipped hd _ _
    (fun n hn => dataTable_descs_skip hd htr hth htd hs rows n hn)]
  simp [pyDictInsert, tableRows_dataTable]

/-- C6: data-table extraction files each table's rows under the nearest
preceding heading; on a page with a farther heading, a nearest `h2` heading
and one `table.data-table`, both variants store, under the stripped nearest
heading text, one row dict per non-empty data row, built by positionally
zipping the stripped header-cell texts with the row's stripped cell texts
(a shorter row zips to a partial mapping, a row with no `td` cells is
skipped). -/
theorem extract_tables_nearest_heading_zip (far hN : PS) (hs : List PS)
    (rows : List (List PS)) :
    extract_tables_fin (tableDoc far hN hs rows) [] =
      [(pyStrip hN, PyVal.list ((rows.filter (fun cs => !cs.isEmpty)).map
        (fun cs => PyVal.dict (dictOfZip (hs.map pyStrip) (cs.map pyStrip)))))] ∧
    extract_tables_st (tableDoc far hN hs rows) [] =
      [(pyStrip hN, PyVal.list ((rows.filter (fun cs => !cs.isEmpty)).map
        (fun cs => PyVal.dict (dictOfZip (hs.map pyStrip) (cs.map pyStrip)))))] :=
  ⟨extract_tables_walk_tableDoc ["h2", "h3"] rfl rfl rfl rfl rfl far hN hs rows,
   extract_tables_walk_tableDoc ["h2"] rfl rfl rfl rfl rfl far hN hs rows⟩

/-! ### Concall button URL resolution -/

/-- C9: on a concalls section entry holding one `button.concall-link` with
label text and a relative `data-url`, the extracted concall entry's url is
the site origin `https://www.screener.in` concatenated with that relative
path (and the date falls back to `Unknown Date` with no date `div`). -/
theorem concall_button_url (lbl p : PS) (hl : pyStrip lbl ≠ []) (hp : p ≠ []) :
    extract_documents_links_fin (concallsDoc lbl p) [] =
      .ok [(pyStr "documents", PyVal.dict
        [(pyStr "announcements", PyVal.list []),
         (pyStr "annual_reports", PyVal.list []),
         (pyStr "concalls", PyVal.list [PyVal.dict
           [(pyStr "date", PyVal.str (pyStr "Unknown Date")),
            (pyStr "links", PyVal.list [PyVal.dict
              [(pyStr "type", PyVal.str (pyStrip lbl)),
               (pyStr "url", PyVal.str (concallBase ++ p))]])]])])] := by
  have hbtn : get_text true (pyStr " ")
      (Node.elem "button" ["concall-link"] [("data-url", p)] [Node.text lbl]) =
        pyStrip lbl := by
    have h1 : (pyStrip lbl).isEmpty = false := by
      cases h : pyStrip lbl
      · exact absurd h hl
      · rfl
    simp [get_text, nodeStrings, nodeStringsL, h1, intercalate_single]
  have hdiv : findFirst ["div"] Option.none (concallButtonLi lbl p) = Option.none := rfl
  have hanch : find_all ["a"] (some "concall-link") (concallButtonLi lbl p) = [] := rfl
  have hbtns : find_all ["button"] (some "concall-link") (concallButtonLi lbl p) =
      [Node.elem "button" ["concall-link"] [("data-url", p)] [Node.text lbl]] := rfl
  have hattr : attrGet
      (Node.elem "button" ["concall-link"] [("data-url", p)] [Node.text lbl])
      "data-url" = some p := rfl
  have hcl : concallLi (concallButtonLi lbl p) = some (PyVal.dict
      [(pyStr "date", PyVal.str (pyStr "Unknown Date")),
       (pyStr "links", PyVal.list [PyVal.dict
         [(pyStr "type", PyVal.str (pyStrip lbl)),
          (pyStr "url", PyVal.str (concallBase ++ p))]])]) := by
    simp only [concallLi, hdiv, hanch, hbtns, hbtn, hattr,
      List.foldl_cons, List.foldl_nil]
    rw [if_pos (⟨hl, hp⟩ : pyStrip lbl ≠ [] ∧ p ≠ [])]
    simp
  have harv : arSection (concallsDoc lbl p) = Option.none := rfl
  have hdocu : documentsUl (concallsDoc lbl p) = Option.none := rfl
  have hccl : concallLis (concallsDoc lbl p) = [concallButtonLi lbl p] := rfl
  simp only [extract_documents_links_fin, harv, hdocu, hccl, hcl,
    List.foldl_cons, List.foldl_nil, Except.map]
  simp [pyDictInsert]

/-- C9 witness: the theorem on a concrete transcript button with
`data-url="/concall/123"`. -/
theorem concall_button_url_witness :
    pyStrip (pyStr " Transcript ") ≠ [] ∧ (pyStr "/concall/123") ≠ [] ∧
      extract_documents_links_fin
          (concallsDoc (pyStr " Transcript ") (pyStr "/concall/123")) [] =
        .ok [(pyStr "documents", PyVal.dict
          [(pyStr "announcements", PyVal.list []),
           (pyStr "annual_reports", PyVal.list []),
           (pyStr "concalls", PyVal.list [PyVal.dict
             [(pyStr "date", PyVal.str (pyStr "Unknown Date")),
              (pyStr "links", PyVal.list [PyVal.dict
                [(pyStr "type", PyVal.str (pyStrip (pyStr " Transcript "))),
                 (pyStr "url",
                  PyVal.str (concallBase ++ pyStr "/concall/123"))]])]])])] :=
  ⟨by decide, by decide,
    concall_button_url (pyStr " Transcript ") (pyStr "/concall/123")
      (by decide) (by decide)⟩

end Ragfin
